import Mathlib

/-!
Verification of the search/indexing engine of the `sc-cn-dictionary` repository
(`dict_manager.py`), shallowly embedded in Lean 4.

Python strings are modelled as `List Char`.  Floating point ranks are modelled
as rationals (every value that actually arises is a small rational: bm25 ranks,
`-1` offsets, `partial_ratio / 100` similarities and the `0.6` threshold).
External libraries used by the source (the `jieba` tokenizer, the
`fuzzywuzzy.fuzz.partial_ratio` scorer, and the SQLite FTS5 match/rank
machinery) are kept as explicit parameters of the embedding; documented
contracts of those libraries appear as named hypotheses of the theorems.
-/

namespace SCDict

/-- Characters of a Python string. -/
abbrev Chars := List Char

/-- The double-quote character. -/
def quoteChar : Char := Char.ofNat 34

/-- The single-quote character. -/
def aposChar : Char := Char.ofNat 39

/-- The newline character. -/
def nlChar : Char := Char.ofNat 10

/-- Model of Python `str.lower` for one character, as ASCII case folding
(the case-folds exercised by the corpus keys and keywords here are ASCII;
CJK characters are unaffected by `lower()`). -/
def lowerChar (c : Char) : Char :=
  if 65 ≤ c.toNat ∧ c.toNat ≤ 90 then Char.ofNat (c.toNat + 32) else c

/-- Model of Python `str.lower`. -/
def lower (s : Chars) : Chars := s.map lowerChar

/-- Model of Python `html.escape` on one character: `&`, `<`, `>`, `"` and
the single quote are replaced by their HTML entities. -/
def escapeChar (c : Char) : Chars :=
  if c = '&' then "&amp;".toList
  else if c = '<' then "&lt;".toList
  else if c = '>' then "&gt;".toList
  else if c = quoteChar then "&quot;".toList
  else if c = aposChar then "&#x27;".toList
  else [c]

/-- Model of Python `html.escape` (from `from html import escape`). -/
def escape : Chars → Chars
  | [] => []
  | c :: rest => escapeChar c ++ escape rest

/-- `DictionaryManager.contains_chinese`: true iff some character lies in
the CJK range `一`–`鿿`. -/
def contains_chinese (s : Chars) : Bool :=
  s.any (fun c => 19968 ≤ c.toNat && c.toNat ≤ 40959)

/-- The emphasis opening marker inserted by `highlight`. -/
def openTag : Chars := ['<', 'b', '>']

/-- The emphasis closing marker inserted by `highlight`. -/
def closeTag : Chars := ['<', '/', 'b', '>']

/-- The ellipsis marker appended by `highlight` when truncating. -/
def ellips : Chars := ['.', '.', '.']

/-- `pat` occurs at the head of `s`, comparing case-insensitively
(model of a match of `re.compile(re.escape(kw), re.IGNORECASE)` at this
position: the pattern is a literal, matched ignoring case). -/
def ciMatches (kw s : Chars) : Bool := decide (lower (s.take kw.length) = lower kw)

/-- Model of `pattern.sub(lambda m: f'<b>{m.group()}</b>', text)` for the
case-insensitive literal pattern `re.escape(kw)`: every non-overlapping
occurrence of `kw` (ignoring case), scanned left to right, is wrapped in
`<b>`/`</b>`; the wrapped text is the matched segment of `text` itself
(original casing).  For the empty keyword, `re.sub` matches the empty string
at every position, inserting `<b></b>` between all characters and at both
ends, exactly as Python does. -/
def subAll (kw text : Chars) : Chars :=
  if hkw : kw = [] then
    match text with
    | [] => openTag ++ closeTag
    | c :: rest => openTag ++ closeTag ++ c :: subAll kw rest
  else
    match text with
    | [] => []
    | c :: rest =>
      if ciMatches kw (c :: rest) then
        openTag ++ (c :: rest).take kw.length ++ closeTag
          ++ subAll kw ((c :: rest).drop kw.length)
      else
        c :: subAll kw rest
termination_by text.length
decreasing_by
  · simp
  · have hpos : 0 < kw.length := List.length_pos.mpr hkw
    simp [List.length_drop]
    omega
  · simp

/-- `pat` is a prefix of `s` (exact, case-sensitive). -/
def begins (pat s : Chars) : Bool := decide (s.take pat.length = pat)

/-- Model of Python `s.replace(pat, rep)` for a nonempty pattern: every
non-overlapping occurrence of `pat`, scanned left to right, is replaced by
`rep`.  (The source only ever calls `replace` with the nonempty literals
`'<b>'`, `'</b>'` and `'\n'`; the `pat = []` branch is never exercised.) -/
def replaceSub (pat rep s : Chars) : Chars :=
  if hp : pat = [] then s
  else
    match s with
    | [] => []
    | c :: rest =>
      if begins pat (c :: rest) then
        rep ++ replaceSub pat rep ((c :: rest).drop pat.length)
      else
        c :: replaceSub pat rep rest
termination_by s.length
decreasing_by
  · have hpos : 0 < pat.length := List.length_pos.mpr hp
    simp [List.length_drop]
    omega
  · simp

/-- `content.replace('<b>', '').replace('</b>', '')` from `highlight`. -/
def stripMarkers (s : Chars) : Chars := replaceSub closeTag [] (replaceSub openTag [] s)

/-- Index of the first occurrence of `pat` in `s`, if any. -/
def findSub (pat : Chars) : Chars → Option Nat
  | [] => if begins pat [] then some 0 else none
  | c :: rest =>
    if begins pat (c :: rest) then some 0 else (findSub pat rest).map (· + 1)

/-- Index of the last occurrence of `pat` in `s`, if any. -/
def findLast (pat : Chars) : Chars → Option Nat
  | [] => if begins pat [] then some 0 else none
  | c :: rest =>
    match findLast pat rest with
    | some j => some (j + 1)
    | none => if begins pat (c :: rest) then some 0 else none

/-- Model of `re.match(r"(.*?)(<b>.*</b>)(.*?)", hl_text)`, returning the
first two groups.  `.` does not match a newline, so the whole match lies in
the first line `L` of `hl_text`; the lazy first group ends at the first
`<b>` in `L` (provided a `</b>` finishes after it), the greedy middle group
runs through the last `</b>` of `L`, and the trailing lazy group is empty. -/
def matchGroups (hl : Chars) : Option (Chars × Chars) :=
  let L := hl.takeWhile (fun c => decide (c ≠ nlChar))
  match findSub openTag L, findLast closeTag L with
  | some i, some j =>
    if i + 3 ≤ j then some (L.take i, (L.drop i).take (j + 4 - i)) else none
  | _, _ => none

/-- `DictionaryManager.highlight`.  `display_length` is the manager field
`self.display_length` (set to 100 in `__init__`, hence never `None`: the
`display_length is None` half of the guard is vacuous).  The budget is
halved when the raw text contains CJK characters; the text is HTML-escaped,
every case-insensitive occurrence of the keyword is wrapped in `<b>`/`</b>`,
and the result is truncated to the budget following the source's
`re.match`-based prefix/content split. -/
def highlight (display_length : Nat) (text kw : Chars) : Chars :=
  let dl := if contains_chinese text then display_length / 2 else display_length
  let etext := escape text
  let hl := subAll kw etext
  if etext.length < dl then hl
  else
    match matchGroups hl with
    | none => hl.take dl ++ ellips
    | some (start, content) =>
      let raw_content := stripMarkers content
      if dl < start.length + raw_content.length then
        if dl < start.length then start.take dl ++ ellips
        else start ++ openTag ++ raw_content.take (dl - start.length) ++ closeTag ++ ellips
      else hl.take dl ++ ellips

/-! ## Data model: language tables, manager state, external collaborators -/

/-- One row of a language table `text_{key}`: the fts5 virtual table holds
the entry key (`text_id`), the untouched raw text, and the
jieba-segmented searchable `content` field. -/
structure Entry where
  text_id : Chars
  raw_text : Chars
  content : Chars
deriving DecidableEq

/-- One language table, in rowid (insertion) order. -/
abbrev Table := List Entry

/-- The persistent state of a `DictionaryManager`: the database (one table
per language code), the enabled languages `self.used_text`
(`['en','cn']`, or `['en','cn','rsui']` when `use_rsui`), and
`self.display_length` (100 in `__init__`). -/
structure Manager where
  tables : List (Chars × Table)
  used_text : List Chars
  display_length : Nat
deriving DecidableEq

/-- External library functions the source calls, kept as parameters of the
embedding: `cut` is `jieba.cut`; `rankFn` is the FTS5 `MATCH`/bm25 engine,
giving `some r` when an entry's segmented content matches the (nonempty)
query pattern with rank `r` and `none` otherwise; `ratioFn` is
`fuzzywuzzy.fuzz.partial_ratio`, a score in 0..100 (its arguments are
already lowercased by the caller, as in the source). -/
structure Ext where
  cut : Chars → List Chars
  rankFn : Chars → Chars → Option ℚ
  ratioFn : Chars → Chars → Nat

/-- Python exceptions that the modelled code can raise:
`sqlite3.OperationalError` (fts5 syntax errors, missing tables),
`RuntimeError` (raised by `refresh_db`), `KeyError` (missing
`TEXT_FILE_DICT` key) and `TypeError` (`None` subscription in
`get_full_text`). -/
inductive PyErr where
  | operationalError (msg : Chars)
  | runtimeError (msg : Chars)
  | keyError
  | typeError
deriving DecidableEq

/-- Equality of modelled call outcomes is decidable (needed so witnesses
can evaluate concrete runs). -/
instance {e a : Type} [DecidableEq e] [DecidableEq a] : DecidableEq (Except e a) := fun x y =>
  match x, y with
  | .error e1, .error e2 =>
    if h : e1 = e2 then .isTrue (by rw [h]) else
      .isFalse (by intro hc; injection hc with hc2; exact h hc2)
  | .ok v1, .ok v2 =>
    if h : v1 = v2 then .isTrue (by rw [h]) else
      .isFalse (by intro hc; injection hc with hc2; exact h hc2)
  | .error _, .ok _ => .isFalse (by intro hc; exact Except.noConfusion hc)
  | .ok _, .error _ => .isFalse (by intro hc; exact Except.noConfusion hc)

/-- Instrumentation: one record per SQL query issued against a language
table — an fts5 `MATCH` query, a `_fuzzy_search` full scan, or the
`text_id IN (...)` lookup of snippet generation. -/
inductive TableQuery where
  | matchQ (db : Chars)
  | scanQ (db : Chars)
  | inQ (db : Chars)
deriving DecidableEq

/-- Association-list lookup (models both Python `dict` lookup and
`key in dict`; `none` = absent). -/
def alookup {α : Type} (k : Chars) : List (Chars × α) → Option α
  | [] => none
  | p :: rest => if p.1 = k then some p.2 else alookup k rest

/-- Association-list assignment `d[k] = v`: replaces in place if the key is
present (keeping its position, as Python dicts do), else appends. -/
def setVal {α : Type} (k : Chars) (v : α) : List (Chars × α) → List (Chars × α)
  | [] => [(k, v)]
  | p :: rest => if p.1 = k then (k, v) :: rest else p :: setVal k v rest

/-! ## The search path -/

/-- Python `str.strip` whitespace class (space, tab, LF, VT, FF, CR). -/
def isPySpace (c : Char) : Bool := c.toNat = 32 || (9 ≤ c.toNat && c.toNat ≤ 13)

/-- Python `str.strip()`. -/
def pyStrip (s : Chars) : Chars :=
  ((s.dropWhile isPySpace).reverse.dropWhile isPySpace).reverse

/-- The fts5 special characters sanitized by `escape_fts5`. -/
def fts5Specials : Chars := [quoteChar, '-', '(', ')', '*', ':']

/-- The inner `escape_fts5` of `search`: each special character is replaced
by a space, then the result is stripped. -/
def escape_fts5 (text : Chars) : Chars :=
  pyStrip (text.map (fun c => if c ∈ fts5Specials then ' ' else c))

/-- `' '.join(tokens)`. -/
def joinTokens (ts : List Chars) : Chars := List.intercalate [' '] ts

/-- The similarity of `_fuzzy_search`:
`fuzz.partial_ratio(keyword.lower(), raw_text.lower()) / 100`. -/
def fuzzSim (ratioFn : Chars → Chars → Nat) (keyword raw_text : Chars) : ℚ :=
  (ratioFn (lower keyword) (lower raw_text) : ℚ) / 100

/-- The pure scan of `_fuzzy_search` over the fetched rows: an entry is
emitted with rank `-similarity` exactly when `similarity >= threshold`. -/
def fuzzyScan (ratioFn : Chars → Chars → Nat) (tbl : Table) (keyword : Chars)
    (threshold : ℚ) : List (Chars × ℚ) :=
  tbl.filterMap (fun e =>
    let similarity := fuzzSim ratioFn keyword e.raw_text
    if threshold ≤ similarity then some (e.text_id, -similarity) else none)

/-- `DictionaryManager._fuzzy_search(db, keyword, threshold=0.6)`:
`SELECT text_id, raw_text from text_{db}` (an error when the table does not
exist) followed by the full scan `fuzzyScan`. -/
def _fuzzy_search (ratioFn : Chars → Chars → Nat) (tables : List (Chars × Table))
    (db keyword : Chars) (threshold : ℚ) : Except PyErr (List (Chars × ℚ)) :=
  match alookup db tables with
  | none => .error (.operationalError ("no such table: text_".toList ++ db))
  | some tbl => .ok (fuzzyScan ratioFn tbl keyword threshold)

/-- Stable insertion into a rank-sorted list: the new pair lands after all
pairs of rank `≤` its own. -/
def insertRank (p : Chars × ℚ) : List (Chars × ℚ) → List (Chars × ℚ)
  | [] => [p]
  | q :: rest => if p.2 < q.2 then p :: q :: rest else q :: insertRank p rest

/-- Stable ascending sort by rank (models both the SQL `ORDER BY rank` and
the Python `weighted_ids.sort(key=lambda x: x[1])`, which are stable;
SQLite's tie order is unspecified, determinized here by table order). -/
def sortByRank (l : List (Chars × ℚ)) : List (Chars × ℚ) :=
  l.foldl (fun acc p => insertRank p acc) []

/-- One exact-match query of `search`:
`SELECT text_id, rank-1 FROM text_{db} WHERE content MATCH ?
[AND LENGTH(raw_text) < ?] ORDER BY rank LIMIT ?`.
With `LIMIT 0` SQLite short-circuits row production before the fts5
pattern is parsed, so the query succeeds with zero rows whatever the
pattern; otherwise an empty `MATCH` pattern is an fts5 syntax error
(`sqlite3.OperationalError`), as in SQLite, and other patterns produced by
the sanitizer are modelled as accepted, with match/rank decided by
`rankFn`. -/
def ftsRows (tbl : Table) (max_length : Option Nat) : Table :=
  match max_length with
  | some m => tbl.filter (fun e => decide (e.raw_text.length < m))
  | none => tbl

/-- The rows of `ftsRows` that `MATCH` the pattern, paired with their
bm25 rank. -/
def ftsMatched (rankFn : Chars → Chars → Option ℚ) (tbl : Table) (segKw : Chars)
    (max_length : Option Nat) : List (Chars × ℚ) :=
  (ftsRows tbl max_length).filterMap
    (fun e => (rankFn segKw e.content).map (fun r => (e.text_id, r)))

def ftsQuery (rankFn : Chars → Chars → Option ℚ) (tbl : Table) (segKw : Chars)
    (max_length : Option Nat) (limit : Nat) : Except PyErr (List (Chars × ℚ)) :=
  if limit = 0 then .ok []
  else if segKw = [] then .error (.operationalError "fts5: syntax error".toList)
  else
    .ok (((sortByRank (ftsMatched rankFn tbl segKw max_length)).take limit).map
      (fun p => (p.1, p.2 - 1)))

/-- The first loop of `search` (`for db in use_db:` over the exact-match
queries), collecting results in order and logging one `MATCH` query per
table. -/
def exactPhase (rankFn : Chars → Chars → Option ℚ) (tables : List (Chars × Table))
    (segKw : Chars) (max_length : Option Nat) (limit : Nat) :
    List Chars → Except PyErr (List (Chars × ℚ) × List TableQuery)
  | [] => .ok ([], [])
  | db :: rest =>
    match alookup db tables with
    | none => .error (.operationalError ("no such table: text_".toList ++ db))
    | some tbl =>
      match ftsQuery rankFn tbl segKw max_length limit with
      | .error e => .error e
      | .ok cache =>
        match exactPhase rankFn tables segKw max_length limit rest with
        | .error e => .error e
        | .ok (more, log) => .ok (cache ++ more, .matchQ db :: log)

/-- The second loop of `search` (`if fuzzy_search: for db in use_db:`),
appending `_fuzzy_search` candidates and logging one full scan per table. -/
def fuzzyPhase (ratioFn : Chars → Chars → Nat) (tables : List (Chars × Table))
    (keyword : Chars) : List Chars → Except PyErr (List (Chars × ℚ) × List TableQuery)
  | [] => .ok ([], [])
  | db :: rest =>
    match _fuzzy_search ratioFn tables db keyword (3 / 5) with
    | .error e => .error e
    | .ok cache =>
      match fuzzyPhase ratioFn tables keyword rest with
      | .error e => .error e
      | .ok (more, log) => .ok (cache ++ more, .scanQ db :: log)

/-- One step of the merge loop of `search`: assign the incoming rank iff
the key is absent or the incoming rank is strictly smaller. -/
def dedupStep (acc : List (Chars × ℚ)) (p : Chars × ℚ) : List (Chars × ℚ) :=
  match alookup p.1 acc with
  | none => setVal p.1 p.2 acc
  | some r0 => if p.2 < r0 then setVal p.1 p.2 acc else acc

/-- The merge loop of `search` building `result_dict` (a Python dict, hence
insertion-ordered). -/
def dedupMin (l : List (Chars × ℚ)) : List (Chars × ℚ) := l.foldl dedupStep []

/-- The tail of `search`: dedup to best rank, stable sort ascending by
rank, project to keys, truncate to `limit`. -/
def mergePipeline (result : List (Chars × ℚ)) (limit : Nat) : List Chars :=
  ((sortByRank (dedupMin result)).map Prod.fst).take limit

/-- The Result Payload: key → (language code → highlighted snippet),
insertion-ordered at both levels. -/
abbrev Payload := List (Chars × List (Chars × Chars))

/-- `ret_data[text_id][db] = snip` (creating the inner dict when absent). -/
def setSnip (pl : Payload) (tid db snip : Chars) : Payload :=
  match alookup tid pl with
  | none => pl ++ [(tid, [(db, snip)])]
  | some inner => setVal tid (setVal db snip inner) pl

/-- The per-table loop of `__generate_result_sqlite`: fetch the rows whose
`text_id` is among `text_ids`, strip newlines from the raw text, highlight,
and store per key and language. -/
def genLoop (M : Manager) (keyword : Chars) (text_ids : List Chars) :
    List Chars → Payload → Except PyErr (Payload × List TableQuery)
  | [], acc => .ok (acc, [])
  | db :: rest, acc =>
    match alookup db M.tables with
    | none => .error (.operationalError ("no such table: text_".toList ++ db))
    | some tbl =>
      let rows := tbl.filter (fun e => decide (e.text_id ∈ text_ids))
      let acc2 := rows.foldl (fun a e =>
        setSnip a e.text_id db
          (highlight M.display_length
            (e.raw_text.map (fun c => if c = nlChar then ' ' else c)) keyword)) acc
      match genLoop M keyword text_ids rest acc2 with
      | .error e => .error e
      | .ok (pl, log) => .ok (pl, .inQ db :: log)

/-- The display language set of `__generate_result_sqlite`: the full
enabled set when the auxiliary language is both requested and enabled,
else the two core languages. -/
def displayDbs (M : Manager) (display_rsui : Bool) : List Chars :=
  if display_rsui ∧ "rsui".toList ∈ M.used_text
    then M.used_text else ["en".toList, "cn".toList]

/-- Decidable equality for snippet-builder outcomes (the nested product
instance is provided explicitly so concrete runs can be evaluated). -/
instance : DecidableEq (Payload × List TableQuery) := instDecidableEqProd

/-- `DictionaryManager.__generate_result_sqlite`: choose the display
language set, return `{}` immediately (touching no table) when `text_ids`
is empty, else run the per-table lookups. -/
def generate_result_sqlite (M : Manager) (text_ids : List Chars) (keyword : Chars)
    (display_rsui : Bool) : Except PyErr (Payload × List TableQuery) :=
  if text_ids = [] then .ok ([], [])
  else genLoop M keyword text_ids (displayDbs M display_rsui) []

/-- How `search` reads a `use_db` argument that may be a single string or a
list (`use_db: list | str`). -/
inductive UseDb where
  | str (s : Chars)
  | list (l : List Chars)

/-- The observable outcome of one `search` call: the ordered key list, the
Result Payload, and the table queries performed. -/
structure SearchTrace where
  ids : List Chars
  payload : Payload
  tableQueries : List TableQuery
deriving DecidableEq

/-- `seg_keyword = ' '.join(jieba.cut(escape_fts5(keyword)))`. -/
def segKeywordOf (ext : Ext) (keyword : Chars) : Chars :=
  joinTokens (ext.cut (escape_fts5 keyword))

/-- The `isinstance(use_db, str)` normalization at the top of `search`:
a bare string becomes a one-element list. -/
def dbsOf (use_db : UseDb) : List Chars :=
  match use_db with
  | .str s => [s]
  | .list l => l

/-- `DictionaryManager.search`: sanitize and segment the keyword, normalize
`use_db`, run the exact queries (rank shifted by `-1` in the SQL select),
optionally the fuzzy scans, merge to best rank per key, sort, truncate, and
build the Result Payload. -/
def search (ext : Ext) (M : Manager) (keyword : Chars) (limit : Nat) (use_db : UseDb)
    (display_rsui : Bool) (max_length : Option Nat) (fuzzy_search : Bool) :
    Except PyErr SearchTrace :=
  match exactPhase ext.rankFn M.tables (segKeywordOf ext keyword) max_length limit
      (dbsOf use_db) with
  | .error e => .error e
  | .ok (exact, log1) =>
    match (if fuzzy_search then fuzzyPhase ext.ratioFn M.tables keyword (dbsOf use_db)
           else .ok ([], [])) with
    | .error e => .error e
    | .ok (fz, log2) =>
      match generate_result_sqlite M (mergePipeline (exact ++ fz) limit) keyword
          display_rsui with
      | .error e => .error e
      | .ok (payload, log3) =>
        .ok ⟨mergePipeline (exact ++ fz) limit, payload, log1 ++ log2 ++ log3⟩

/-- The per-language loop of `get_full_text`: `fetchone()` on
`WHERE text_id = ?`; a missing row gives `None`, and `None[0]` raises
`TypeError`. -/
def gftLoop (M : Manager) (text_id : Chars) :
    List Chars → Except PyErr (List (Chars × Chars))
  | [] => .ok []
  | db :: rest =>
    match alookup db M.tables with
    | none => .error (.operationalError ("no such table: text_".toList ++ db))
    | some tbl =>
      match (tbl.filter (fun e => decide (e.text_id = text_id))).head? with
      | none => .error .typeError
      | some e =>
        match gftLoop M text_id rest with
        | .error er => .error er
        | .ok out => .ok ((db, escape e.raw_text) :: out)

/-- `DictionaryManager.get_full_text` (its `use_rsui` parameter is unused
by the source body, which always iterates `self.used_text`). -/
def get_full_text (M : Manager) (text_id : Chars) (_use_rsui : Bool) :
    Except PyErr (List (Chars × Chars)) :=
  gftLoop M text_id M.used_text

/-! ## The rebuild path -/

/-- `DictionaryManager.TEXT_FILE_DICT`. -/
def TEXT_FILE_DICT : List (Chars × Chars) :=
  [("en".toList, "en.ini".toList), ("cn".toList, "cn.ini".toList),
   ("rsui".toList, "rsui.ini".toList)]

/-- Python `line.partition('=')` restricted to the two components the
source keeps: the part before the first `=` and the part after it (the
whole line and an empty tail when no `=` occurs). -/
def partitionEq : Chars → Chars × Chars
  | [] => ([], [])
  | c :: rest =>
    if c = '=' then ([], rest)
    else
      let p := partitionEq rest
      (c :: p.1, p.2)

/-- The rows `refresh_db` builds from one source file: per line, key before
the first `=`, raw text after it, content = the jieba segmentation of the
raw text. -/
def buildRows (ext : Ext) (ls : List Chars) : Table :=
  ls.map (fun line =>
    let p := partitionEq line
    ⟨p.1, p.2, joinTokens (ext.cut p.2)⟩)

/-- The per-language loop of `refresh_db` over a file system `files`
(mapping file name to the lines `readlines` returns): a missing source file
raises a `RuntimeError` naming the language; otherwise the language's table
is replaced wholesale (`DELETE FROM` + `INSERT`, an error when the table
does not exist). -/
def refreshLoop (ext : Ext) (files : List (Chars × List Chars)) :
    List Chars → List (Chars × Table) → Except PyErr (List (Chars × Table))
  | [], tables => .ok tables
  | key :: rest, tables =>
    match alookup key TEXT_FILE_DICT with
    | none => .error .keyError
    | some fname =>
      match alookup fname files with
      | none => .error (.runtimeError ("文本文件".toList ++ key ++ "不存在，无法读取".toList))
      | some ls =>
        match alookup key tables with
        | none => .error (.operationalError ("no such table: text_".toList ++ key))
        | some _ => refreshLoop ext files rest (setVal key (buildRows ext ls) tables)

/-- `DictionaryManager.refresh_db`. -/
def refresh_db (ext : Ext) (files : List (Chars × List Chars)) (M : Manager) :
    Except PyErr Manager :=
  match refreshLoop ext files M.used_text M.tables with
  | .error e => .error e
  | .ok tables => .ok { M with tables := tables }

/-- `DictionaryManager.create_db`: `CREATE VIRTUAL TABLE IF NOT EXISTS
text_{key}` for every enabled language (existing tables untouched). -/
def create_db (M : Manager) : Manager :=
  let ts := M.used_text.foldl
    (fun ts key => match alookup key ts with
      | some _ => ts
      | none => ts ++ [(key, [])]) M.tables
  { M with tables := ts }

/-- `DictionaryManager.full_refresh`: `create_db` then `refresh_db`. -/
def full_refresh (ext : Ext) (files : List (Chars × List Chars)) (M : Manager) :
    Except PyErr Manager :=
  refresh_db ext files (create_db M)

/-- The comparison `search` sorts by: ascending rank. -/
def RankLE (a b : Chars × ℚ) : Prop := a.2 ≤ b.2

/-- The keys of an association list. -/
def keys {α : Type} (l : List (Chars × α)) : List Chars := l.map Prod.fst

/-- The ranks collected for one key in a result list. -/
def ranksOf (k : Chars) (l : List (Chars × ℚ)) : List ℚ :=
  l.filterMap (fun p => if p.1 = k then some p.2 else none)

/-- Minimum-combining update of an optional best rank (the effect of one
`result_dict` update on one key). -/
def combineMin (o : Option ℚ) (r : ℚ) : Option ℚ :=
  match o with
  | none => some r
  | some m => some (min m r)

/-- Folding `combineMin` over a list of ranks. -/
def foldMin (o : Option ℚ) (rs : List ℚ) : Option ℚ := rs.foldl combineMin o

/-- Index of the first case-insensitive occurrence of `kw` in `text`
(the position where `re.sub` places the first emphasis marker). -/
def findCI (kw : Chars) : Chars → Option Nat
  | [] => if ciMatches kw [] then some 0 else none
  | c :: rest =>
    if ciMatches kw (c :: rest) then some 0 else (findCI kw rest).map (· + 1)

/-! ## Concrete fixtures used by witnesses and counterexamples -/

/-- A concrete external-collaborator instance: a tokenizer returning the
whole (nonempty) input as one token, a rank function matching on content
equality with bm25-style strictly negative rank, and a constant
`partial_ratio` of 80. -/
def extA : Ext :=
  ⟨fun s => if s = [] then [] else [s],
   fun kw c => if kw = c then some (-2) else none,
   fun _ _ => 80⟩

/-- A one-row `cn` table. -/
def tblCn : Table :=
  [⟨"greet001".toList, "hello world".toList, "hello world".toList⟩]

/-- A manager with a populated `cn` table and an empty `en` table. -/
def mgrA : Manager :=
  ⟨[("cn".toList, tblCn), ("en".toList, [])], ["en".toList, "cn".toList], 100⟩

/-- A 300-character raw text with the keyword `helo` at index 250. -/
def c7text : Chars :=
  List.replicate 250 'a' ++ "helo".toList ++ List.replicate 46 'b'

/-- A concrete file system for the rebuild fixtures. -/
def filesA : List (Chars × List Chars) :=
  [("en.ini".toList, ["k1=hello".toList]), ("cn.ini".toList, ["k1=nihao".toList])]

/-- A manager whose two core tables both hold the key `greet001`. -/
def mgrB : Manager :=
  ⟨[("cn".toList, tblCn),
    ("en".toList, [⟨"greet001".toList, "Hello World".toList, "Hello World".toList⟩])],
   ["en".toList, "cn".toList], 100⟩

/-- The manager state `full_refresh` produces from `filesA` over `mgrA`. -/
def mgrRefreshed : Manager :=
  ⟨[("cn".toList, [⟨"k1".toList, "nihao".toList, "nihao".toList⟩]),
    ("en".toList, [⟨"k1".toList, "hello".toList, "hello".toList⟩])],
   ["en".toList, "cn".toList], 100⟩

/-! ## Lemmas: stable sort by rank -/


theorem insertRank_perm (p : Chars × ℚ) (l : List (Chars × ℚ)) :
    List.Perm (insertRank p l) (p :: l) := by
  induction l with
  | nil => rfl
  | cons q rest ih =>
    simp only [insertRank]
    split
    · rfl
    · exact (ih.cons q).trans (List.Perm.swap p q rest)

theorem foldl_insertRank_perm (l : List (Chars × ℚ)) :
    ∀ acc, List.Perm (l.foldl (fun acc p => insertRank p acc) acc) (acc ++ l) := by
  induction l with
  | nil => simp
  | cons p rest ih =>
    intro acc
    refine ((ih (insertRank p acc)).trans ?_)
    exact ((insertRank_perm p acc).append_right rest).trans List.perm_middle.symm

theorem sortByRank_perm (l : List (Chars × ℚ)) : List.Perm (sortByRank l) l := by
  simpa [sortByRank] using foldl_insertRank_perm l []

theorem insertRank_sorted (p : Chars × ℚ) (l : List (Chars × ℚ))
    (h : l.Pairwise RankLE) : (insertRank p l).Pairwise RankLE := by
  induction l with
  | nil => simp [insertRank, RankLE]
  | cons q rest ih =>
    rcases List.pairwise_cons.mp h with ⟨hq, hrest⟩
    simp only [insertRank]
    split
    · refine List.pairwise_cons.mpr ⟨?_, h⟩
      intro x hx
      rcases List.mem_cons.mp hx with hx | hx
      · subst hx
        exact le_of_lt (by assumption)
      · exact le_of_lt (lt_of_lt_of_le (by assumption) (hq x hx))
    · refine List.pairwise_cons.mpr ⟨?_, ih hrest⟩
      intro x hx
      rcases List.mem_cons.mp ((insertRank_perm p rest).mem_iff.mp hx) with hx | hx
      · subst hx
        exact le_of_not_lt (by assumption)
      · exact hq x hx

theorem sortByRank_sorted (l : List (Chars × ℚ)) : (sortByRank l).Pairwise RankLE := by
  suffices h : ∀ acc, acc.Pairwise RankLE →
      (l.foldl (fun acc p => insertRank p acc) acc).Pairwise RankLE by
    exact h [] (by simp)
  induction l with
  | nil => intro acc hacc; simpa using hacc
  | cons p rest ih => intro acc hacc; exact ih _ (insertRank_sorted p acc hacc)

/-! ## Lemmas: the merge (dedup to minimum rank) -/


theorem keys_nil {α : Type} : keys ([] : List (Chars × α)) = [] := rfl

theorem keys_cons {α : Type} (p : Chars × α) (l : List (Chars × α)) :
    keys (p :: l) = p.1 :: keys l := rfl

theorem keys_append {α : Type} (a b : List (Chars × α)) :
    keys (a ++ b) = keys a ++ keys b := by
  simp [keys]


theorem alookup_setVal {α : Type} (a k : Chars) (v : α) (l : List (Chars × α)) :
    alookup a (setVal k v l) = if k = a then some v else alookup a l := by
  induction l with
  | nil => simp [setVal, alookup]
  | cons p rest ih =>
    simp only [setVal]
    by_cases h1 : p.1 = k
    · rw [if_pos h1]
      by_cases h2 : k = a
      · simp [alookup, h2]
      · have h3 : ¬ p.1 = a := fun hh => h2 (h1.symm.trans hh)
        simp [alookup, h2, h3]
    · rw [if_neg h1]
      simp only [alookup]
      by_cases h2 : p.1 = a
      · have h3 : ¬ k = a := fun hh => h1 (h2.trans hh.symm)
        simp [h2, h3]
      · simp [h2, ih]

theorem alookup_eq_none_iff {α : Type} (k : Chars) (l : List (Chars × α)) :
    alookup k l = none ↔ k ∉ keys l := by
  induction l with
  | nil => simp [alookup, keys_nil]
  | cons p rest ih =>
    simp only [alookup, keys_cons, List.mem_cons]
    by_cases h : p.1 = k
    · simp [h]
    · have h2 : ¬ k = p.1 := fun hh => h hh.symm
      simp [h, h2, ih]

theorem keys_setVal_present {α : Type} (k : Chars) (v : α) (l : List (Chars × α))
    (h : k ∈ keys l) : keys (setVal k v l) = keys l := by
  induction l with
  | nil => simp [keys] at h
  | cons p rest ih =>
    by_cases h1 : p.1 = k
    · simp [setVal, keys_cons, h1]
    · have h2 : k ∈ keys rest := by
        simp only [keys_cons, List.mem_cons] at h
        rcases h with h3 | h3
        · exact absurd h3.symm h1
        · exact h3
      show keys (if p.1 = k then (k, v) :: rest else p :: setVal k v rest) = keys (p :: rest)
      rw [if_neg h1, keys_cons, keys_cons, ih h2]

theorem keys_setVal_absent {α : Type} (k : Chars) (v : α) (l : List (Chars × α))
    (h : k ∉ keys l) : keys (setVal k v l) = keys l ++ [k] := by
  induction l with
  | nil => simp [setVal, keys_nil, keys_cons]
  | cons p rest ih =>
    have h1 : p.1 ≠ k := by
      intro h1
      exact h (by simp [keys_cons, h1])
    have h2 : k ∉ keys rest := fun h2 => h (by simp [keys_cons, h2])
    simp [setVal, keys_cons, h1, ih h2]

theorem alookup_dedupStep (k : Chars) (acc : List (Chars × ℚ)) (p : Chars × ℚ) :
    alookup k (dedupStep acc p) =
      if p.1 = k then combineMin (alookup k acc) p.2 else alookup k acc := by
  unfold dedupStep
  cases h0 : alookup p.1 acc with
  | none =>
    rw [alookup_setVal]
    by_cases h : p.1 = k
    · subst h
      simp [h0, combineMin]
    · simp [h]
  | some r0 =>
    by_cases hlt : p.2 < r0
    · simp only [hlt, if_pos]
      rw [alookup_setVal]
      by_cases h : p.1 = k
      · subst h
        simp [h0, combineMin, min_eq_right (le_of_lt hlt)]
      · simp [h]
    · simp only [hlt, if_neg, if_false]
      by_cases h : p.1 = k
      · subst h
        simp [h0, combineMin, min_eq_left (le_of_not_lt hlt)]
      · simp [h]

theorem alookup_foldl_dedupStep (l : List (Chars × ℚ)) :
    ∀ acc k, alookup k (l.foldl dedupStep acc) = foldMin (alookup k acc) (ranksOf k l) := by
  induction l with
  | nil => intro acc k; simp [foldMin, ranksOf]
  | cons p rest ih =>
    intro acc k
    rw [List.foldl_cons, ih, alookup_dedupStep]
    by_cases h : p.1 = k <;> simp [h, ranksOf, List.filterMap_cons, foldMin]

theorem alookup_dedupMin (l : List (Chars × ℚ)) (k : Chars) :
    alookup k (dedupMin l) = foldMin none (ranksOf k l) := by
  simpa [dedupMin, alookup] using alookup_foldl_dedupStep l [] k

theorem foldMin_some (m : ℚ) (rs : List ℚ) : foldMin (some m) rs = some (rs.foldl min m) := by
  induction rs generalizing m with
  | nil => rfl
  | cons r rs ih => simpa [foldMin, combineMin] using ih (min m r)

theorem foldl_min_mem (rs : List ℚ) : ∀ m, rs.foldl min m = m ∨ rs.foldl min m ∈ rs := by
  induction rs with
  | nil => intro m; simp
  | cons r rs ih =>
    intro m
    rcases ih (min m r) with h | h
    · rcases min_choice m r with h2 | h2 <;> rw [List.foldl_cons] <;> rw [h, h2]
      · exact Or.inl rfl
      · exact Or.inr (by simp)
    · exact Or.inr (by simp [h])

theorem foldl_min_le (rs : List ℚ) :
    ∀ m, rs.foldl min m ≤ m ∧ ∀ r ∈ rs, rs.foldl min m ≤ r := by
  induction rs with
  | nil => intro m; simp
  | cons r rs ih =>
    intro m
    rcases ih (min m r) with ⟨h1, h2⟩
    refine ⟨le_trans h1 (min_le_left m r), ?_⟩
    intro x hx
    rcases List.mem_cons.mp hx with hx | hx
    · rw [hx]
      exact le_trans h1 (min_le_right m r)
    · exact h2 x hx

theorem foldMin_of_le (m : ℚ) (rs : List ℚ) (h : ∀ r ∈ rs, m ≤ r) :
    foldMin (some m) rs = some m := by
  rw [foldMin_some]
  congr 1
  induction rs with
  | nil => rfl
  | cons r rs ih =>
    rw [List.foldl_cons, min_eq_left (h r (by simp))]
    exact ih (fun x hx => h x (by simp [hx]))

theorem foldMin_append (o : Option ℚ) (xs ys : List ℚ) :
    foldMin o (xs ++ ys) = foldMin (foldMin o xs) ys := by
  simp [foldMin, List.foldl_append]

theorem ranksOf_append (k : Chars) (a b : List (Chars × ℚ)) :
    ranksOf k (a ++ b) = ranksOf k a ++ ranksOf k b := by
  simp [ranksOf, List.filterMap_append]

theorem ranksOf_cons_pos (k : Chars) (p : Chars × ℚ) (rest : List (Chars × ℚ))
    (h : p.1 = k) : ranksOf k (p :: rest) = p.2 :: ranksOf k rest := by
  simp [ranksOf, List.filterMap_cons, h]

theorem ranksOf_cons_neg (k : Chars) (p : Chars × ℚ) (rest : List (Chars × ℚ))
    (h : ¬ p.1 = k) : ranksOf k (p :: rest) = ranksOf k rest := by
  simp [ranksOf, List.filterMap_cons, h]

theorem ranksOf_ne_nil_iff (k : Chars) (l : List (Chars × ℚ)) :
    ranksOf k l ≠ [] ↔ k ∈ keys l := by
  induction l with
  | nil => simp [ranksOf, keys_nil]
  | cons p rest ih =>
    by_cases h : p.1 = k
    · rw [ranksOf_cons_pos k p rest h, keys_cons, h]
      simp
    · rw [ranksOf_cons_neg k p rest h, keys_cons]
      have h2 : ¬ k = p.1 := fun hh => h hh.symm
      simp [ih, h2]

theorem mem_ranksOf (k : Chars) (l : List (Chars × ℚ)) (r : ℚ) :
    r ∈ ranksOf k l ↔ (k, r) ∈ l := by
  induction l with
  | nil => simp [ranksOf]
  | cons p rest ih =>
    by_cases h : p.1 = k
    · rw [ranksOf_cons_pos k p rest h]
      simp only [List.mem_cons, ih]
      constructor
      · rintro (h2 | h2)
        · exact Or.inl (Prod.ext h.symm h2)
        · exact Or.inr h2
      · rintro (h2 | h2)
        · exact Or.inl (congrArg Prod.snd h2)
        · exact Or.inr h2
    · rw [ranksOf_cons_neg k p rest h]
      simp only [List.mem_cons, ih]
      constructor
      · exact fun h2 => Or.inr h2
      · rintro (h2 | h2)
        · exact absurd (congrArg Prod.fst h2).symm h
        · exact h2

/-- The minimum-rank characterization of `result_dict`: for every key with
at least one collected rank, the retained value is the least collected
rank. -/
theorem dedupMin_retains_min (l : List (Chars × ℚ)) (k : Chars)
    (h : ranksOf k l ≠ []) :
    ∃ m, alookup k (dedupMin l) = some m ∧ m ∈ ranksOf k l ∧
      ∀ r ∈ ranksOf k l, m ≤ r := by
  rcases List.exists_cons_of_ne_nil h with ⟨r, rs, hr⟩
  rw [alookup_dedupMin, hr]
  have h0 : foldMin none (r :: rs) = some (rs.foldl min r) := by
    rw [show foldMin none (r :: rs) = foldMin (some r) rs from rfl, foldMin_some]
  refine ⟨rs.foldl min r, h0, ?_, ?_⟩
  · rcases foldl_min_mem rs r with h2 | h2
    · simp [h2]
    · simp [h2]
  · intro x hx
    rcases List.mem_cons.mp hx with h2 | h2
    · exact h2 ▸ (foldl_min_le rs r).1
    · exact (foldl_min_le rs r).2 x h2

theorem keys_dedupStep_nodup (acc : List (Chars × ℚ)) (p : Chars × ℚ)
    (h : (keys acc).Nodup) : (keys (dedupStep acc p)).Nodup := by
  unfold dedupStep
  cases h0 : alookup p.1 acc with
  | none =>
    have habs : p.1 ∉ keys acc := (alookup_eq_none_iff p.1 acc).mp h0
    rw [keys_setVal_absent p.1 p.2 acc habs]
    simp [List.nodup_append, h, habs]
  | some r0 =>
    have hpres : p.1 ∈ keys acc := by
      by_contra hc
      rw [(alookup_eq_none_iff p.1 acc).mpr hc] at h0
      exact Option.noConfusion h0
    by_cases hlt : p.2 < r0 <;> simp [hlt, keys_setVal_present p.1 p.2 acc hpres, h]

theorem dedupMin_keys_nodup (l : List (Chars × ℚ)) : (keys (dedupMin l)).Nodup := by
  suffices hgen : ∀ acc, (keys acc).Nodup → (keys (l.foldl dedupStep acc)).Nodup by
    exact hgen [] (by simp [keys])
  induction l with
  | nil => intro acc hacc; simpa using hacc
  | cons p rest ih => intro acc hacc; exact ih _ (keys_dedupStep_nodup acc p hacc)

/-! ## Lemmas: what the exact and fuzzy phases emit -/

theorem fuzzSim_nonneg (ratioFn : Chars → Chars → Nat) (kw raw : Chars) :
    0 ≤ fuzzSim ratioFn kw raw := by
  unfold fuzzSim
  positivity

theorem fuzzSim_le_one (ratioFn : Chars → Chars → Nat)
    (h : ∀ a b, ratioFn a b ≤ 100) (kw raw : Chars) : fuzzSim ratioFn kw raw ≤ 1 := by
  unfold fuzzSim
  rw [div_le_one (by norm_num)]
  exact_mod_cast h (lower kw) (lower raw)

theorem mem_fuzzyScan_iff (ratioFn : Chars → Chars → Nat) (tbl : Table) (kw : Chars)
    (th : ℚ) (p : Chars × ℚ) :
    p ∈ fuzzyScan ratioFn tbl kw th ↔
      ∃ e ∈ tbl, th ≤ fuzzSim ratioFn kw e.raw_text ∧
        p = (e.text_id, -(fuzzSim ratioFn kw e.raw_text)) := by
  unfold fuzzyScan
  rw [List.mem_filterMap]
  constructor
  · rintro ⟨e, he, hsome⟩
    by_cases hth : th ≤ fuzzSim ratioFn kw e.raw_text
    · refine ⟨e, he, hth, ?_⟩
      simp only [hth, if_pos] at hsome
      exact (Option.some.injEq _ _ ▸ hsome).symm
    · simp [hth] at hsome
  · rintro ⟨e, he, hth, hp⟩
    exact ⟨e, he, by simp [hth, hp]⟩

theorem mem_ftsRows (tbl : Table) (ml : Option Nat) (e : Entry)
    (h : e ∈ ftsRows tbl ml) : e ∈ tbl := by
  cases ml with
  | none => exact h
  | some m => exact List.mem_of_mem_filter h

theorem ftsQuery_ok_mem (rankFn : Chars → Chars → Option ℚ) (tbl : Table)
    (segKw : Chars) (ml : Option Nat) (lim : Nat) (res : List (Chars × ℚ))
    (h : ftsQuery rankFn tbl segKw ml lim = .ok res) :
    ∀ p ∈ res, ∃ e ∈ tbl, ∃ r0, rankFn segKw e.content = some r0 ∧
      p = (e.text_id, r0 - 1) := by
  unfold ftsQuery at h
  by_cases hl : lim = 0
  · rw [if_pos hl] at h
    injection h with h2
    intro p hp
    rw [← h2] at hp
    simp at hp
  rw [if_neg hl] at h
  by_cases hk : segKw = []
  · simp [hk] at h
  · rw [if_neg hk] at h
    injection h with h2
    intro p hp
    rw [← h2] at hp
    rcases List.mem_map.mp hp with ⟨q, hq, hpq⟩
    have hq2 : q ∈ sortByRank (ftsMatched rankFn tbl segKw ml) := List.mem_of_mem_take hq
    have hq3 : q ∈ ftsMatched rankFn tbl segKw ml :=
      (sortByRank_perm (ftsMatched rankFn tbl segKw ml)).subset hq2
    rcases List.mem_filterMap.mp hq3 with ⟨e, he, hsome⟩
    rcases Option.map_eq_some'.mp hsome with ⟨r0, hr0, hq4⟩
    refine ⟨e, mem_ftsRows tbl ml e he, r0, hr0, ?_⟩
    rw [← hpq, ← hq4]

theorem exactPhase_ok_mem (rankFn : Chars → Chars → Option ℚ)
    (tables : List (Chars × Table)) (segKw : Chars) (ml : Option Nat) (lim : Nat) :
    ∀ dbs res log, exactPhase rankFn tables segKw ml lim dbs = .ok (res, log) →
      ∀ p ∈ res, ∃ db ∈ dbs, ∃ tbl, alookup db tables = some tbl ∧
        ∃ e ∈ tbl, ∃ r0, rankFn segKw e.content = some r0 ∧
          p = (e.text_id, r0 - 1) := by
  intro dbs
  induction dbs with
  | nil =>
    intro res log h p hp
    simp only [exactPhase, Except.ok.injEq, Prod.mk.injEq] at h
    rw [← h.1] at hp
    simp at hp
  | cons db rest ih =>
    intro res log h p hp
    unfold exactPhase at h
    cases htbl : alookup db tables with
    | none => simp only [htbl] at h; simp at h
    | some tbl =>
      simp only [htbl] at h
      cases hq : ftsQuery rankFn tbl segKw ml lim with
      | error e => simp only [hq] at h; simp at h
      | ok cache =>
        simp only [hq] at h
        cases hrec : exactPhase rankFn tables segKw ml lim rest with
        | error e => simp only [hrec] at h; simp at h
        | ok pr =>
          rcases pr with ⟨more, log2⟩
          simp only [hrec] at h
          simp only [Except.ok.injEq, Prod.mk.injEq] at h
          rw [← h.1] at hp
          rcases List.mem_append.mp hp with hp2 | hp2
          · rcases ftsQuery_ok_mem rankFn tbl segKw ml lim cache hq p hp2 with
              ⟨e, he, r0, hr0, hpe⟩
            exact ⟨db, by simp, tbl, htbl, e, he, r0, hr0, hpe⟩
          · rcases ih more log2 (by rw [hrec]) p hp2 with
              ⟨db2, hdb2, tbl2, htbl2, e, he, r0, hr0, hpe⟩
            exact ⟨db2, by simp [hdb2], tbl2, htbl2, e, he, r0, hr0, hpe⟩

theorem fuzzyPhase_ok_mem (ratioFn : Chars → Chars → Nat)
    (tables : List (Chars × Table)) (keyword : Chars) :
    ∀ dbs res log, fuzzyPhase ratioFn tables keyword dbs = .ok (res, log) →
      ∀ p ∈ res, ∃ db ∈ dbs, ∃ tbl, alookup db tables = some tbl ∧
        ∃ e ∈ tbl, (3 : ℚ) / 5 ≤ fuzzSim ratioFn keyword e.raw_text ∧
          p = (e.text_id, -(fuzzSim ratioFn keyword e.raw_text)) := by
  intro dbs
  induction dbs with
  | nil =>
    intro res log h p hp
    simp only [fuzzyPhase, Except.ok.injEq, Prod.mk.injEq] at h
    rw [← h.1] at hp
    simp at hp
  | cons db rest ih =>
    intro res log h p hp
    unfold fuzzyPhase at h
    unfold _fuzzy_search at h
    cases htbl : alookup db tables with
    | none => simp only [htbl] at h; simp at h
    | some tbl =>
      simp only [htbl] at h
      cases hrec : fuzzyPhase ratioFn tables keyword rest with
      | error e => simp only [hrec] at h; simp at h
      | ok pr =>
        rcases pr with ⟨more, log2⟩
        simp only [hrec] at h
        simp only [Except.ok.injEq, Prod.mk.injEq] at h
        rw [← h.1] at hp
        rcases List.mem_append.mp hp with hp2 | hp2
        · rcases (mem_fuzzyScan_iff ratioFn tbl keyword (3 / 5) p).mp hp2 with
            ⟨e, he, hth, hpe⟩
          exact ⟨db, by simp, tbl, htbl, e, he, hth, hpe⟩
        · rcases ih more log2 (by rw [hrec]) p hp2 with
            ⟨db2, hdb2, tbl2, htbl2, e, he, hth, hpe⟩
          exact ⟨db2, by simp [hdb2], tbl2, htbl2, e, he, hth, hpe⟩

theorem exactPhase_log_shape (rankFn : Chars → Chars → Option ℚ)
    (tables : List (Chars × Table)) (segKw : Chars) (ml : Option Nat) (lim : Nat) :
    ∀ dbs res log, exactPhase rankFn tables segKw ml lim dbs = .ok (res, log) →
      ∀ q ∈ log, ∃ db, q = TableQuery.matchQ db := by
  intro dbs
  induction dbs with
  | nil =>
    intro res log h q hq
    simp only [exactPhase, Except.ok.injEq, Prod.mk.injEq] at h
    rw [← h.2] at hq
    simp at hq
  | cons db rest ih =>
    intro res log h q hq
    unfold exactPhase at h
    cases htbl : alookup db tables with
    | none => simp only [htbl] at h; simp at h
    | some tbl =>
      simp only [htbl] at h
      cases hq2 : ftsQuery rankFn tbl segKw ml lim with
      | error e => simp only [hq2] at h; simp at h
      | ok cache =>
        simp only [hq2] at h
        cases hrec : exactPhase rankFn tables segKw ml lim rest with
        | error e => simp only [hrec] at h; simp at h
        | ok pr =>
          rcases pr with ⟨more, log2⟩
          simp only [hrec] at h
          simp only [Except.ok.injEq, Prod.mk.injEq] at h
          rw [← h.2] at hq
          rcases List.mem_cons.mp hq with hq3 | hq3
          · exact ⟨db, hq3⟩
          · exact ih more log2 (by rw [hrec]) q hq3

theorem ftsQuery_limit_zero (rankFn : Chars → Chars → Option ℚ) (tbl : Table)
    (segKw : Chars) (ml : Option Nat) :
    ftsQuery rankFn tbl segKw ml 0 = .ok [] := by
  simp [ftsQuery]

theorem exactPhase_limit_zero (rankFn : Chars → Chars → Option ℚ)
    (tables : List (Chars × Table)) (segKw : Chars) (ml : Option Nat) :
    ∀ dbs : List Chars, (∀ db ∈ dbs, alookup db tables ≠ none) →
      exactPhase rankFn tables segKw ml 0 dbs
        = .ok ([], dbs.map TableQuery.matchQ) := by
  intro dbs
  induction dbs with
  | nil => intro h; rfl
  | cons db rest ih =>
    intro h
    unfold exactPhase
    cases htbl : alookup db tables with
    | none => exact absurd htbl (h db (List.mem_cons_self db rest))
    | some tbl =>
      simp [ftsQuery_limit_zero, ih (fun d hd => h d (List.mem_cons_of_mem db hd))]

theorem fuzzyPhase_all_ok (ratioFn : Chars → Chars → Nat)
    (tables : List (Chars × Table)) (kw : Chars) :
    ∀ dbs : List Chars, (∀ db ∈ dbs, alookup db tables ≠ none) →
      ∃ res, fuzzyPhase ratioFn tables kw dbs
        = .ok (res, dbs.map TableQuery.scanQ) := by
  intro dbs
  induction dbs with
  | nil => intro h; exact ⟨[], rfl⟩
  | cons db rest ih =>
    intro h
    rcases ih (fun d hd => h d (List.mem_cons_of_mem db hd)) with ⟨res, hres⟩
    cases htbl : alookup db tables with
    | none => exact absurd htbl (h db (List.mem_cons_self db rest))
    | some tbl =>
      refine ⟨fuzzyScan ratioFn tbl kw (3 / 5) ++ res, ?_⟩
      unfold fuzzyPhase _fuzzy_search
      simp only [htbl, hres, List.map_cons]

theorem genLoop_log_shape (M : Manager) (keyword : Chars) (text_ids : List Chars) :
    ∀ dbs acc pl log, genLoop M keyword text_ids dbs acc = .ok (pl, log) →
      ∀ q ∈ log, ∃ db, q = TableQuery.inQ db := by
  intro dbs
  induction dbs with
  | nil =>
    intro acc pl log h q hq
    simp only [genLoop, Except.ok.injEq, Prod.mk.injEq] at h
    rw [← h.2] at hq
    simp at hq
  | cons db rest ih =>
    intro acc pl log h q hq
    unfold genLoop at h
    cases htbl : alookup db M.tables with
    | none => simp only [htbl] at h; simp at h
    | some tbl =>
      simp only [htbl] at h
      cases hrec : genLoop M keyword text_ids rest
          ((tbl.filter (fun e => decide (e.text_id ∈ text_ids))).foldl
            (fun a e => setSnip a e.text_id db
              (highlight M.display_length
                (e.raw_text.map (fun c => if c = nlChar then ' ' else c)) keyword)) acc) with
      | error e => simp only [hrec] at h; simp at h
      | ok pr =>
        rcases pr with ⟨pl2, log2⟩
        simp only [hrec] at h
        simp only [Except.ok.injEq, Prod.mk.injEq] at h
        rw [← h.2] at hq
        rcases List.mem_cons.mp hq with hq3 | hq3
        · exact ⟨db, hq3⟩
        · exact ih _ pl2 log2 (by rw [hrec]) q hq3

/-! ## Lemmas: the highlighter markers strip back off -/

theorem take_len_append {α : Type} (a b : List α) : (a ++ b).take a.length = a := by
  induction a with
  | nil => simp
  | cons c a ih => simp [ih]

theorem drop_len_append {α : Type} (a b : List α) : (a ++ b).drop a.length = b := by
  induction a with
  | nil => simp
  | cons c a ih => simp [ih]

theorem begins_self_append (pat l : Chars) : begins pat (pat ++ l) = true := by
  simp [begins, take_len_append]

theorem rs_cons_ne (pat rep : Chars) (c : Char) (l : Chars) (hp : pat ≠ [])
    (h : begins pat (c :: l) = false) :
    replaceSub pat rep (c :: l) = c :: replaceSub pat rep l := by
  rw [replaceSub, dif_neg hp, h]
  simp

theorem rs_head (pat rep l : Chars) (hp : pat ≠ []) :
    replaceSub pat rep (pat ++ l) = rep ++ replaceSub pat rep l := by
  obtain ⟨d, pat2, hd⟩ := List.exists_cons_of_ne_nil hp
  have hb : begins pat (pat ++ l) = true := begins_self_append pat l
  rw [hd] at hb ⊢
  rw [List.cons_append, replaceSub, dif_neg (by simp : ¬(d :: pat2 = [])), ← List.cons_append, hb]
  simp [drop_len_append]

theorem begins_openTag_ne (c : Char) (l : Chars) (h : ¬ c = '<') :
    begins openTag (c :: l) = false := by
  simp [begins, openTag, h]

theorem begins_closeTag_ne (c : Char) (l : Chars) (h : ¬ c = '<') :
    begins closeTag (c :: l) = false := by
  simp [begins, closeTag, h]

theorem begins_openTag_slash (l : Chars) :
    begins openTag ('<' :: '/' :: l) = false := by
  simp [begins, openTag]

theorem rs_nil (pat rep : Chars) (hp : pat ≠ []) : replaceSub pat rep [] = [] := by
  rw [replaceSub, dif_neg hp]

theorem sm_cons_ne (c : Char) (l : Chars) (h : ¬ c = '<') :
    stripMarkers (c :: l) = c :: stripMarkers l := by
  unfold stripMarkers
  rw [rs_cons_ne openTag [] c l (by simp [openTag]) (begins_openTag_ne c l h),
    rs_cons_ne closeTag [] c _ (by simp [closeTag]) (begins_closeTag_ne c _ h)]

theorem sm_open (l : Chars) : stripMarkers (openTag ++ l) = stripMarkers l := by
  unfold stripMarkers
  rw [rs_head openTag [] l (by simp [openTag])]
  simp

theorem sm_close (l : Chars) : stripMarkers (closeTag ++ l) = stripMarkers l := by
  unfold stripMarkers
  have h1 : replaceSub openTag [] (closeTag ++ l) =
      closeTag ++ replaceSub openTag [] l := by
    show replaceSub openTag [] ('<' :: '/' :: 'b' :: '>' :: l) =
      '<' :: '/' :: 'b' :: '>' :: replaceSub openTag [] l
    rw [rs_cons_ne openTag [] '<' ('/' :: 'b' :: '>' :: l) (by simp [openTag])
        (begins_openTag_slash ('b' :: '>' :: l)),
      rs_cons_ne openTag [] '/' ('b' :: '>' :: l) (by simp [openTag])
        (begins_openTag_ne _ _ (by decide)),
      rs_cons_ne openTag [] 'b' ('>' :: l) (by simp [openTag])
        (begins_openTag_ne _ _ (by decide)),
      rs_cons_ne openTag [] '>' l (by simp [openTag])
        (begins_openTag_ne _ _ (by decide))]
  rw [h1, rs_head closeTag [] _ (by simp [closeTag])]
  simp

theorem sm_seg (seg l : Chars) (h : ∀ c ∈ seg, ¬ c = '<') :
    stripMarkers (seg ++ l) = seg ++ stripMarkers l := by
  induction seg with
  | nil => simp
  | cons c seg ih =>
    rw [List.cons_append, sm_cons_ne c _ (h c (by simp)), ih (fun x hx => h x (by simp [hx]))]
    rfl

theorem sm_nil : stripMarkers [] = [] := by
  unfold stripMarkers
  rw [rs_nil openTag [] (by simp [openTag]), rs_nil closeTag [] (by simp [closeTag])]

theorem subAll_nil_emptyKw (kw : Chars) (hkw : kw = []) :
    subAll kw [] = openTag ++ closeTag := by
  rw [subAll.eq_def, dif_pos hkw]

theorem subAll_cons_emptyKw (kw : Chars) (c : Char) (rest : Chars) (hkw : kw = []) :
    subAll kw (c :: rest) = openTag ++ closeTag ++ c :: subAll kw rest := by
  rw [subAll.eq_def, dif_pos hkw]

theorem subAll_nil (kw : Chars) (hkw : ¬ kw = []) : subAll kw [] = [] := by
  rw [subAll.eq_def, dif_neg hkw]

theorem subAll_cons_hit (kw : Chars) (c : Char) (rest : Chars) (hkw : ¬ kw = [])
    (hci : ciMatches kw (c :: rest) = true) :
    subAll kw (c :: rest) = openTag ++ (c :: rest).take kw.length ++ closeTag ++
      subAll kw ((c :: rest).drop kw.length) := by
  rw [subAll.eq_def]
  simp only [dif_neg hkw, hci, if_pos]

theorem subAll_cons_miss (kw : Chars) (c : Char) (rest : Chars) (hkw : ¬ kw = [])
    (hci : ¬ ciMatches kw (c :: rest) = true) :
    subAll kw (c :: rest) = c :: subAll kw rest := by
  rw [subAll.eq_def]
  simp [dif_neg hkw, hci]

/-- Stripping the emphasis markers undoes the keyword wrapping, for any text
free of `<` (as HTML-escaped text always is). -/
theorem stripMarkers_subAll (kw text : Chars) :
    (∀ c ∈ text, ¬ c = '<') → stripMarkers (subAll kw text) = text := by
  refine subAll.induct kw
    (fun t => (∀ c ∈ t, ¬ c = '<') → stripMarkers (subAll kw t) = t)
    ?_ ?_ ?_ ?_ ?_ text
  · intro hkw h
    rw [subAll_nil_emptyKw kw hkw,
      show openTag ++ closeTag = openTag ++ (closeTag ++ ([] : Chars)) by simp,
      sm_open, sm_close, sm_nil]
  · intro hkw c rest ih h
    rw [subAll_cons_emptyKw kw c rest hkw,
      show openTag ++ closeTag ++ c :: subAll kw rest =
        openTag ++ (closeTag ++ (c :: subAll kw rest)) by simp,
      sm_open, sm_close, sm_cons_ne c _ (h c (by simp)),
      ih (fun x hx => h x (by simp [hx]))]
  · intro hkw h
    rw [subAll_nil kw hkw, sm_nil]
  · intro hkw c rest hci ih h
    rw [subAll_cons_hit kw c rest hkw hci,
      show openTag ++ (c :: rest).take kw.length ++ closeTag ++
          subAll kw ((c :: rest).drop kw.length) =
        openTag ++ ((c :: rest).take kw.length ++ (closeTag ++
          subAll kw ((c :: rest).drop kw.length))) by simp,
      sm_open,
      sm_seg _ _ (fun x hx => h x (List.mem_of_mem_take hx)),
      sm_close, ih (fun x hx => h x (List.mem_of_mem_drop hx))]
    exact List.take_append_drop kw.length (c :: rest)
  · intro hkw c rest hci ih h
    rw [subAll_cons_miss kw c rest hkw hci, sm_cons_ne c _ (h c (by simp)),
      ih (fun x hx => h x (by simp [hx]))]

theorem escapeChar_no_lt (c c2 : Char) (h : c2 ∈ escapeChar c) : ¬ c2 = '<' := by
  unfold escapeChar at h
  split_ifs at h with h1 h2 h3 h4 h5
  · intro hq; rw [hq] at h; revert h; decide
  · intro hq; rw [hq] at h; revert h; decide
  · intro hq; rw [hq] at h; revert h; decide
  · intro hq; rw [hq] at h; revert h; decide
  · intro hq; rw [hq] at h; revert h; decide
  · intro hq
    rw [hq] at h
    simp only [List.mem_singleton] at h
    exact h2 h.symm

theorem escape_no_lt (s : Chars) : ∀ c ∈ escape s, ¬ c = '<' := by
  induction s with
  | nil => simp [escape]
  | cons c rest ih =>
    intro x hx
    rcases List.mem_append.mp (by simpa [escape] using hx) with h2 | h2
    · exact escapeChar_no_lt c x h2
    · exact ih x h2

theorem escape_all_plain (s : Chars) (h : ∀ c ∈ s, escapeChar c = [c]) :
    escape s = s := by
  induction s with
  | nil => rfl
  | cons c rest ih =>
    rw [escape, h c (by simp), ih (fun x hx => h x (by simp [hx]))]
    rfl

/-! ## Lemmas: the truncation path of the highlighter -/


theorem ciMatches_nil_false (kw : Chars) (hkw : ¬ kw = []) : ciMatches kw [] = false := by
  simp only [ciMatches, List.take_nil, lower, List.map_nil, decide_eq_false_iff_not]
  intro h
  exact hkw (List.map_eq_nil_iff.mp h.symm)

theorem begins_nil_false (pat : Chars) (hp : ¬ pat = []) : begins pat [] = false := by
  simp only [begins, List.take_nil, decide_eq_false_iff_not]
  exact fun h => hp h.symm

/-- Splitting `subAll` at the first occurrence: everything before the first
case-insensitive hit is copied verbatim, then the matched segment is
wrapped, then the tail is processed recursively. -/
theorem subAll_split (kw : Chars) (hkw : ¬ kw = []) :
    ∀ text n, findCI kw text = some n →
      subAll kw text = text.take n ++ openTag ++ (text.drop n).take kw.length ++
        closeTag ++ subAll kw (text.drop (n + kw.length)) := by
  intro text
  induction text with
  | nil =>
    intro n h
    rw [findCI, ciMatches_nil_false kw hkw] at h
    simp at h
  | cons c rest ih =>
    intro n h
    rw [findCI] at h
    cases hc : ciMatches kw (c :: rest) with
    | true =>
      rw [hc] at h
      simp only [if_true] at h
      injection h with h2
      rw [← h2]
      rw [subAll_cons_hit kw c rest hkw hc]
      simp
    | false =>
      rw [hc] at h
      simp only [Bool.false_eq_true, if_false, Option.map_eq_some'] at h
      rcases h with ⟨m, hm, hn⟩
      rw [← hn]
      rw [subAll_cons_miss kw c rest hkw (by simp [hc]), ih m hm]
      simp only [List.take_succ_cons, List.drop_succ_cons, List.cons_append]
      rw [show m + 1 + List.length kw = (m + List.length kw) + 1 by omega,
        List.drop_succ_cons]

/-- Every character of `subAll kw text` is a character of `text` or of one
of the emphasis markers. -/
theorem mem_subAll (kw text : Chars) (x : Char) :
    x ∈ subAll kw text → x ∈ text ∨ x ∈ openTag ∨ x ∈ closeTag := by
  refine subAll.induct kw
    (fun t => x ∈ subAll kw t → x ∈ t ∨ x ∈ openTag ∨ x ∈ closeTag)
    ?_ ?_ ?_ ?_ ?_ text
  · intro hkw h
    rw [subAll_nil_emptyKw kw hkw] at h
    rcases List.mem_append.mp h with h2 | h2
    · exact Or.inr (Or.inl h2)
    · exact Or.inr (Or.inr h2)
  · intro hkw c rest ih h
    rw [subAll_cons_emptyKw kw c rest hkw] at h
    rcases List.mem_append.mp h with h2 | h2
    · rcases List.mem_append.mp h2 with h3 | h3
      · exact Or.inr (Or.inl h3)
      · exact Or.inr (Or.inr h3)
    · rcases List.mem_cons.mp h2 with h4 | h4
      · exact Or.inl (by simp [h4])
      · rcases ih h4 with h5 | h5
        · exact Or.inl (by simp [h5])
        · exact Or.inr h5
  · intro hkw h
    rw [subAll_nil kw hkw] at h
    simp at h
  · intro hkw c rest hci ih h
    rw [subAll_cons_hit kw c rest hkw hci] at h
    rcases List.mem_append.mp h with h2 | h2
    · rcases List.mem_append.mp h2 with h3 | h3
      · rcases List.mem_append.mp h3 with h4 | h4
        · exact Or.inr (Or.inl h4)
        · exact Or.inl (List.mem_of_mem_take h4)
      · exact Or.inr (Or.inr h3)
    · rcases ih h2 with h5 | h5
      · exact Or.inl (List.mem_of_mem_drop h5)
      · exact Or.inr h5
  · intro hkw c rest hci ih h
    rw [subAll_cons_miss kw c rest hkw hci] at h
    rcases List.mem_cons.mp h with h2 | h2
    · exact Or.inl (by simp [h2])
    · rcases ih h2 with h5 | h5
      · exact Or.inl (by simp [h5])
      · exact Or.inr h5

theorem takeWhile_all (p : Char → Bool) (s : Chars) (h : ∀ c ∈ s, p c = true) :
    s.takeWhile p = s := by
  induction s with
  | nil => rfl
  | cons c rest ih =>
    rw [List.takeWhile_cons, h c (by simp)]
    simp [ih (fun x hx => h x (by simp [hx]))]

theorem findSub_before_openTag (l : Chars) :
    ∀ A : Chars, (∀ c ∈ A, ¬ c = '<') →
      findSub openTag (A ++ (openTag ++ l)) = some A.length := by
  intro A
  induction A with
  | nil =>
    intro _
    show findSub openTag ('<' :: 'b' :: '>' :: l) = some 0
    rw [findSub, show ('<' :: 'b' :: '>' :: l) = openTag ++ l from rfl,
      begins_self_append]
    simp
  | cons c A ih =>
    intro h
    rw [List.cons_append, findSub, begins_openTag_ne c _ (h c (by simp)),
      ih (fun x hx => h x (by simp [hx]))]
    simp

theorem findLast_ge (pat : Chars) (hp : ¬ pat = []) :
    ∀ (s : Chars) (p : Nat), begins pat (s.drop p) = true →
      ∃ j, findLast pat s = some j ∧ p ≤ j := by
  intro s
  induction s with
  | nil =>
    intro p h
    rw [List.drop_nil, begins_nil_false pat hp] at h
    exact absurd h (by simp)
  | cons c rest ih =>
    intro p h
    cases p with
    | zero =>
      rw [findLast]
      cases hrec : findLast pat rest with
      | some j2 => exact ⟨j2 + 1, rfl, by omega⟩
      | none =>
        rw [List.drop_zero] at h
        rw [h]
        exact ⟨0, by simp, le_refl 0⟩
    | succ q =>
      rw [List.drop_succ_cons] at h
      rcases ih q h with ⟨j2, hrec, hle⟩
      rw [findLast, hrec]
      exact ⟨j2 + 1, rfl, by omega⟩

theorem escapeChar_self_ne_lt (c : Char) (h : escapeChar c = [c]) : ¬ c = '<' := by
  intro h2
  rw [h2] at h
  revert h
  decide

theorem escapeChar_self_ne_nl (c : Char) (h : escapeChar c = [c]) : True := trivial

/-- Claim C7: non-CJK text of length 300, plain characters, first
case-insensitive keyword occurrence at index 250, default budget 100: the
output is the 100-character prefix plus the ellipsis, carries no emphasis,
and has length exactly 100 + the ellipsis length. -/
theorem highlight_prefix_overflow (text kw : Chars)
    (hlen : text.length = 300)
    (hcjk : contains_chinese text = false)
    (hplain : ∀ c ∈ text, escapeChar c = [c])
    (hnl : ∀ c ∈ text, ¬ c = nlChar)
    (hocc : findCI kw text = some 250) :
    highlight 100 text kw = text.take 100 ++ ellips ∧
    (highlight 100 text kw).length = 100 + ellips.length ∧
    ∀ c ∈ highlight 100 text kw, ¬ c = '<' := by
  have hkw : ¬ kw = [] := by
    intro h
    cases text with
    | nil => simp at hlen
    | cons c rest =>
      rw [h, findCI, show ciMatches [] (c :: rest) = true by simp [ciMatches, lower]] at hocc
      simp at hocc
  have hlt : ∀ c ∈ text, ¬ c = '<' := fun c hc => escapeChar_self_ne_lt c (hplain c hc)
  have hesc : escape text = text := escape_all_plain text hplain
  have hsplit := subAll_split kw hkw text 250 hocc
  have hAlen : (text.take 250).length = 250 := by
    rw [List.length_take, hlen]
    decide
  have hshape1 : subAll kw text = text.take 250 ++
      (openTag ++ ((text.drop 250).take kw.length ++ (closeTag ++
        subAll kw (text.drop (250 + kw.length))))) := by
    rw [hsplit]
    simp [List.append_assoc]
  have hshape2 : subAll kw text = (text.take 250 ++ openTag ++ (text.drop 250).take kw.length)
      ++ (closeTag ++ subAll kw (text.drop (250 + kw.length))) := by
    rw [hsplit]
    simp [List.append_assoc]
  have hhl_nl : ∀ c ∈ subAll kw text, ¬ c = nlChar := by
    intro c hc
    rcases mem_subAll kw text c hc with h | h | h
    · exact hnl c h
    · intro h2
      rw [h2] at h
      revert h
      decide
    · intro h2
      rw [h2] at h
      revert h
      decide
  have hLw : (subAll kw text).takeWhile (fun c => decide (c ≠ nlChar)) = subAll kw text := by
    refine takeWhile_all _ _ (fun c hc => ?_)
    simp [hhl_nl c hc]
  have h1 : findSub openTag (subAll kw text) = some 250 := by
    rw [hshape1, findSub_before_openTag _ (text.take 250)
      (fun c hc => hlt c (List.mem_of_mem_take hc)), hAlen]
  have h2 : ∃ j, findLast closeTag (subAll kw text) = some j ∧ 253 ≤ j := by
    have hb : begins closeTag ((subAll kw text).drop
        ((text.take 250 ++ openTag ++ (text.drop 250).take kw.length)).length) = true := by
      rw [hshape2, drop_len_append, begins_self_append]
    rcases findLast_ge closeTag (by simp [closeTag]) (subAll kw text) _ hb with ⟨j, hj, hle⟩
    refine ⟨j, hj, ?_⟩
    have hlen2 : ((text.take 250 ++ openTag ++ (text.drop 250).take kw.length)).length =
        250 + 3 + ((text.drop 250).take kw.length).length := by
      simp only [List.length_append, hAlen, openTag, List.length_cons, List.length_nil] <;> omega
    omega
  rcases h2 with ⟨j, hj, hjle⟩
  have hstart : (subAll kw text).take 250 = text.take 250 := by
    have htk := take_len_append (text.take 250)
      (openTag ++ ((text.drop 250).take kw.length ++ (closeTag ++
        subAll kw (text.drop (250 + kw.length)))))
    rw [hAlen] at htk
    rw [hshape1]
    exact htk
  have hmg : matchGroups (subAll kw text) =
      some (text.take 250, ((subAll kw text).drop 250).take (j + 4 - 250)) := by
    unfold matchGroups
    simp only [hLw, h1, hj]
    rw [if_pos (by omega : 250 + 3 ≤ j), hstart]
  have hfinal : highlight 100 text kw = (text.take 250).take 100 ++ ellips := by
    unfold highlight
    simp only [hcjk, Bool.false_eq_true, if_false, hesc, hlen]
    rw [if_neg (by omega : ¬ (300 : Nat) < 100), hmg]
    have hc1 : 100 < (text.take 250).length +
        (stripMarkers (((subAll kw text).drop 250).take (j + 4 - 250))).length := by
      rw [hAlen]
      omega
    show (if 100 < (text.take 250).length +
          (stripMarkers (((subAll kw text).drop 250).take (j + 4 - 250))).length then
          if 100 < (text.take 250).length then (text.take 250).take 100 ++ ellips
          else text.take 250 ++ openTag ++
            (stripMarkers (((subAll kw text).drop 250).take (j + 4 - 250))).take
              (100 - (text.take 250).length) ++ closeTag ++ ellips
        else (subAll kw text).take 100 ++ ellips) = (text.take 250).take 100 ++ ellips
    rw [if_pos hc1, if_pos (by rw [hAlen]; omega : 100 < (text.take 250).length)]
  have heq : highlight 100 text kw = text.take 100 ++ ellips := by
    rw [hfinal, List.take_take]
    norm_num
  refine ⟨heq, ?_, ?_⟩
  · rw [heq]
    simp [List.length_append, List.length_take, hlen]
  · intro c hc
    rw [heq] at hc
    rcases List.mem_append.mp hc with h3 | h3
    · exact hlt c (List.mem_of_mem_take h3)
    · intro h4
      rw [h4] at h3
      revert h3
      decide

/-! ## Lemmas: inversion of `search` and of the payload builders -/

theorem search_ok_inv (ext : Ext) (M : Manager) (keyword : Chars) (limit : Nat)
    (use_db : UseDb) (display_rsui : Bool) (max_length : Option Nat)
    (fuzzy_search : Bool) (T : SearchTrace)
    (h : search ext M keyword limit use_db display_rsui max_length fuzzy_search = .ok T) :
    ∃ exact log1 fz log2 payload log3,
      exactPhase ext.rankFn M.tables (segKeywordOf ext keyword) max_length limit
        (dbsOf use_db) = .ok (exact, log1) ∧
      (if fuzzy_search then fuzzyPhase ext.ratioFn M.tables keyword (dbsOf use_db)
        else .ok ([], [])) = .ok (fz, log2) ∧
      generate_result_sqlite M (mergePipeline (exact ++ fz) limit) keyword display_rsui
        = .ok (payload, log3) ∧
      T.ids = mergePipeline (exact ++ fz) limit ∧
      T.payload = payload ∧ T.tableQueries = log1 ++ log2 ++ log3 := by
  unfold search at h
  cases h1 : exactPhase ext.rankFn M.tables (segKeywordOf ext keyword) max_length limit
      (dbsOf use_db) with
  | error e =>
    simp only [h1] at h
    exact Except.noConfusion h
  | ok pr1 =>
    rcases pr1 with ⟨exact, log1⟩
    simp only [h1] at h
    cases h2 : (if fuzzy_search then fuzzyPhase ext.ratioFn M.tables keyword (dbsOf use_db)
        else .ok ([], [])) with
    | error e =>
      simp only [h2] at h
      exact Except.noConfusion h
    | ok pr2 =>
      rcases pr2 with ⟨fz, log2⟩
      simp only [h2] at h
      cases h3 : generate_result_sqlite M (mergePipeline (exact ++ fz) limit) keyword
          display_rsui with
      | error e =>
        simp only [h3] at h
        exact Except.noConfusion h
      | ok pr3 =>
        rcases pr3 with ⟨payload, log3⟩
        simp only [h3, Except.ok.injEq] at h
        exact ⟨exact, log1, fz, log2, payload, log3, rfl, rfl, h3,
          by rw [← h], by rw [← h], by rw [← h]⟩

theorem mergePipeline_zero (result : List (Chars × ℚ)) : mergePipeline result 0 = [] := by
  simp [mergePipeline]

theorem generate_nil (M : Manager) (keyword : Chars) (display_rsui : Bool) :
    generate_result_sqlite M [] keyword display_rsui = .ok ([], []) := by
  simp [generate_result_sqlite]

theorem generate_log_shape (M : Manager) (ids : List Chars) (keyword : Chars)
    (display_rsui : Bool) (pl : Payload) (log : List TableQuery)
    (h : generate_result_sqlite M ids keyword display_rsui = .ok (pl, log)) :
    ∀ q ∈ log, ∃ db, q = TableQuery.inQ db := by
  unfold generate_result_sqlite at h
  by_cases hids : ids = []
  · rw [if_pos hids] at h
    injection h with h2
    intro q hq
    rw [show log = [] from (congrArg Prod.snd h2).symm] at hq
    simp at hq
  · rw [if_neg hids] at h
    exact genLoop_log_shape M keyword ids (displayDbs M display_rsui) [] pl log h

theorem alookup_some_mem_keys {α : Type} (k : Chars) (l : List (Chars × α)) (v : α)
    (h : alookup k l = some v) : k ∈ keys l := by
  by_contra hc
  rw [(alookup_eq_none_iff k l).mpr hc] at h
  exact Option.noConfusion h

theorem keys_setSnip (pl : Payload) (tid db snip : Chars) :
    ∀ t ∈ keys (setSnip pl tid db snip), t ∈ keys pl ∨ t = tid := by
  intro t ht
  unfold setSnip at ht
  cases h0 : alookup tid pl with
  | none =>
    rw [h0] at ht
    rw [keys_append] at ht
    rcases List.mem_append.mp ht with h2 | h2
    · exact Or.inl h2
    · simp [keys_cons, keys_nil] at h2
      exact Or.inr h2
  | some inner =>
    rw [h0] at ht
    rw [keys_setVal_present tid _ pl (alookup_some_mem_keys tid pl inner h0)] at ht
    exact Or.inl ht

theorem keys_foldl_setSnip (db : Chars) (f : Entry → Chars) (rows : Table) :
    ∀ (acc : Payload) (t : Chars),
      t ∈ keys (rows.foldl (fun a e => setSnip a e.text_id db (f e)) acc) →
      t ∈ keys acc ∨ ∃ e ∈ rows, e.text_id = t := by
  induction rows with
  | nil => intro acc t ht; exact Or.inl ht
  | cons e rows ih =>
    intro acc t ht
    rcases ih (setSnip acc e.text_id db (f e)) t ht with h2 | h2
    · rcases keys_setSnip acc e.text_id db (f e) t h2 with h3 | h3
      · exact Or.inl h3
      · exact Or.inr ⟨e, by simp, h3.symm⟩
    · rcases h2 with ⟨e2, he2, hid⟩
      exact Or.inr ⟨e2, by simp [he2], hid⟩

theorem genLoop_keys (M : Manager) (keyword : Chars) (text_ids : List Chars) :
    ∀ dbs acc pl log, genLoop M keyword text_ids dbs acc = .ok (pl, log) →
      ∀ t ∈ keys pl, t ∈ keys acc ∨ t ∈ text_ids := by
  intro dbs
  induction dbs with
  | nil =>
    intro acc pl log h t ht
    simp only [genLoop, Except.ok.injEq, Prod.mk.injEq] at h
    rw [← h.1] at ht
    exact Or.inl ht
  | cons db rest ih =>
    intro acc pl log h t ht
    unfold genLoop at h
    cases htbl : alookup db M.tables with
    | none =>
      simp only [htbl] at h
      exact Except.noConfusion h
    | some tbl =>
      simp only [htbl] at h
      cases hrec : genLoop M keyword text_ids rest
          ((tbl.filter (fun e => decide (e.text_id ∈ text_ids))).foldl
            (fun a e => setSnip a e.text_id db
              (highlight M.display_length
                (e.raw_text.map (fun c => if c = nlChar then ' ' else c)) keyword)) acc) with
      | error e =>
        simp only [hrec] at h
        exact Except.noConfusion h
      | ok pr =>
        rcases pr with ⟨pl2, log2⟩
        simp only [hrec, Except.ok.injEq, Prod.mk.injEq] at h
        rw [← h.1] at ht
        rcases ih _ pl2 log2 (by rw [hrec]) t ht with h2 | h2
        · rcases keys_foldl_setSnip db _ _ acc t h2 with h3 | h3
          · exact Or.inl h3
          · rcases h3 with ⟨e, he, hid⟩
            have := List.mem_filter.mp he
            exact Or.inr (by rw [← hid]; exact of_decide_eq_true this.2)
        · exact Or.inr h2

theorem genLoop_ok (M : Manager) (keyword : Chars) (text_ids : List Chars) :
    ∀ dbs acc, (∀ db ∈ dbs, ∃ tbl, alookup db M.tables = some tbl) →
      ∃ pl log, genLoop M keyword text_ids dbs acc = .ok (pl, log) := by
  intro dbs
  induction dbs with
  | nil => intro acc _; exact ⟨acc, [], rfl⟩
  | cons db rest ih =>
    intro acc hdbs
    rcases hdbs db (by simp) with ⟨tbl, htbl⟩
    unfold genLoop
    rcases ih ((tbl.filter (fun e => decide (e.text_id ∈ text_ids))).foldl
        (fun a e => setSnip a e.text_id db
          (highlight M.display_length
            (e.raw_text.map (fun c => if c = nlChar then ' ' else c)) keyword)) acc)
      (fun d hd => hdbs d (by simp [hd])) with ⟨pl, log, hrec⟩
    refine ⟨pl, TableQuery.inQ db :: log, ?_⟩
    simp only [htbl, hrec]

theorem gftLoop_ok_mem (M : Manager) (text_id : Chars) :
    ∀ dbs out, gftLoop M text_id dbs = .ok out →
      ∀ db ∈ dbs, ∃ tbl e, alookup db M.tables = some tbl ∧ e ∈ tbl ∧
        e.text_id = text_id := by
  intro dbs
  induction dbs with
  | nil => intro out h db hdb; simp at hdb
  | cons db0 rest ih =>
    intro out h db hdb
    unfold gftLoop at h
    cases htbl : alookup db0 M.tables with
    | none =>
      simp only [htbl] at h
      exact Except.noConfusion h
    | some tbl =>
      simp only [htbl] at h
      cases hhd : (tbl.filter (fun e => decide (e.text_id = text_id))).head? with
      | none =>
        simp only [hhd] at h
        exact Except.noConfusion h
      | some e =>
        simp only [hhd] at h
        cases hrec : gftLoop M text_id rest with
        | error er =>
          simp only [hrec] at h
          exact Except.noConfusion h
        | ok out2 =>
          have hmem : e ∈ tbl.filter (fun e => decide (e.text_id = text_id)) := by
            cases hfl : tbl.filter (fun e => decide (e.text_id = text_id)) with
            | nil => rw [hfl] at hhd; simp at hhd
            | cons e2 l2 =>
              rw [hfl] at hhd
              simp only [List.head?_cons, Option.some.injEq] at hhd
              rw [hhd]
              simp
          have hf := List.mem_filter.mp hmem
          rcases List.mem_cons.mp hdb with hdb2 | hdb2
          · exact ⟨tbl, e, hdb2 ▸ htbl, hf.1, of_decide_eq_true hf.2⟩
          · exact ih out2 (by rw [hrec]) db hdb2

/-! ## Lemmas: the rebuild path -/

theorem alookup_append {α : Type} (k : Chars) (a b : List (Chars × α)) :
    alookup k (a ++ b) =
      match alookup k a with
      | some v => some v
      | none => alookup k b := by
  induction a with
  | nil => simp [alookup]
  | cons p rest ih =>
    by_cases h : p.1 = k <;> simp [alookup, h, ih]

theorem create_step_mono (ts : List (Chars × Table)) (key k : Chars) (t : Table)
    (h : alookup k ts = some t) :
    ∃ t2, alookup k (match alookup key ts with
      | some _ => ts
      | none => ts ++ [(key, [])]) = some t2 := by
  cases h0 : alookup key ts with
  | some t0 => exact ⟨t, h⟩
  | none =>
    rw [alookup_append, h]
    exact ⟨t, rfl⟩

theorem create_foldl_mono (l : List Chars) :
    ∀ (ts : List (Chars × Table)) (k : Chars) (t : Table), alookup k ts = some t →
      ∃ t2, alookup k (l.foldl (fun ts key => match alookup key ts with
        | some _ => ts
        | none => ts ++ [(key, [])]) ts) = some t2 := by
  induction l with
  | nil => intro ts k t h; exact ⟨t, h⟩
  | cons key rest ih =>
    intro ts k t h
    rcases create_step_mono ts key k t h with ⟨t2, h2⟩
    exact ih _ k t2 h2

theorem create_db_has (M : Manager) :
    ∀ k ∈ M.used_text, ∃ t, alookup k (create_db M).tables = some t := by
  unfold create_db
  suffices hgen : ∀ (l : List Chars) (ts : List (Chars × Table)) (k : Chars), k ∈ l →
      ∃ t, alookup k (l.foldl (fun ts key => match alookup key ts with
        | some _ => ts
        | none => ts ++ [(key, [])]) ts) = some t by
    intro k hk
    exact hgen M.used_text M.tables k hk
  intro l
  induction l with
  | nil => intro ts k hk; simp at hk
  | cons key rest ih =>
    intro ts k hk
    rcases List.mem_cons.mp hk with hk2 | hk2
    · have hpres : ∃ t, alookup k (match alookup key ts with
          | some _ => ts
          | none => ts ++ [(key, [])]) = some t := by
        cases h0 : alookup key ts with
        | some t0 => exact ⟨t0, hk2 ▸ h0⟩
        | none =>
          rw [alookup_append, hk2, h0]
          exact ⟨[], by simp [alookup]⟩
      rcases hpres with ⟨t, ht⟩
      exact create_foldl_mono rest _ k t ht
    · exact ih _ k hk2

theorem refreshLoop_ok (ext : Ext) (files : List (Chars × List Chars)) :
    ∀ (l : List Chars) (ts : List (Chars × Table)),
      (∀ k ∈ l, ∃ t, alookup k ts = some t) →
      (∀ k ∈ l, ∃ f ls, alookup k TEXT_FILE_DICT = some f ∧ alookup f files = some ls) →
      ∃ ts2, refreshLoop ext files l ts = .ok ts2 ∧
        (∀ k ∈ l, ∀ f ls, alookup k TEXT_FILE_DICT = some f → alookup f files = some ls →
          alookup k ts2 = some (buildRows ext ls)) ∧
        (∀ k, k ∉ l → alookup k ts2 = alookup k ts) := by
  intro l
  induction l with
  | nil =>
    intro ts _ _
    exact ⟨ts, rfl, by simp, fun k _ => rfl⟩
  | cons key rest ih =>
    intro ts hts hall
    rcases hall key (by simp) with ⟨f0, ls0, hf0, hls0⟩
    rcases hts key (by simp) with ⟨t0, ht0⟩
    have hstep : refreshLoop ext files (key :: rest) ts =
        refreshLoop ext files rest (setVal key (buildRows ext ls0) ts) := by
      unfold refreshLoop
      simp only [hf0, hls0, ht0]
      rw [refreshLoop.eq_def]
    rcases ih (setVal key (buildRows ext ls0) ts)
        (fun k hk => by
          rcases hts k (by simp [hk]) with ⟨t, ht⟩
          rw [alookup_setVal]
          by_cases hke : key = k
          · exact ⟨buildRows ext ls0, by rw [if_pos hke]⟩
          · exact ⟨t, by rw [if_neg hke]; exact ht⟩)
        (fun k hk => hall k (by simp [hk])) with ⟨ts2, hrun, hvals, hunt⟩
    refine ⟨ts2, by rw [hstep, hrun], ?_, ?_⟩
    · intro k hk f ls hf hls
      rcases List.mem_cons.mp hk with hk2 | hk2
      · by_cases hkr : k ∈ rest
        · exact hvals k hkr f ls hf hls
        · rw [hunt k hkr, hk2, alookup_setVal, if_pos rfl]
          rw [hk2] at hf
          rw [hf0] at hf
          injection hf with hf2
          rw [← hf2] at hls
          rw [hls0] at hls
          injection hls with hls2
          rw [hls2]
      · exact hvals k hk2 f ls hf hls
    · intro k hk
      have hk1 : ¬ key = k := fun he => hk (by simp [he])
      have hk2 : k ∉ rest := fun he => hk (by simp [he])
      rw [hunt k hk2, alookup_setVal, if_neg hk1]

theorem refreshLoop_first_missing (ext : Ext) (files : List (Chars × List Chars)) :
    ∀ (l : List Chars) (ts : List (Chars × Table)),
      (∀ k ∈ l, ∃ f, alookup k TEXT_FILE_DICT = some f) →
      (∀ k ∈ l, ∃ t, alookup k ts = some t) →
      (∃ k ∈ l, ∃ f, alookup k TEXT_FILE_DICT = some f ∧ alookup f files = none) →
      ∃ k f, k ∈ l ∧ alookup k TEXT_FILE_DICT = some f ∧ alookup f files = none ∧
        refreshLoop ext files l ts = .error (.runtimeError
          ("文本文件".toList ++ k ++ "不存在，无法读取".toList)) := by
  intro l
  induction l with
  | nil =>
    intro ts _ _ hmiss
    rcases hmiss with ⟨k, hk, _⟩
    simp at hk
  | cons key rest ih =>
    intro ts hdict hts hmiss
    rcases hdict key (by simp) with ⟨f0, hf0⟩
    cases hls0 : alookup f0 files with
    | none =>
      refine ⟨key, f0, by simp, hf0, hls0, ?_⟩
      unfold refreshLoop
      simp only [hf0, hls0]
    | some ls0 =>
      rcases hts key (by simp) with ⟨t0, ht0⟩
      have hstep : refreshLoop ext files (key :: rest) ts =
          refreshLoop ext files rest (setVal key (buildRows ext ls0) ts) := by
        unfold refreshLoop
        simp only [hf0, hls0, ht0]
        rw [refreshLoop.eq_def]
      have hmiss2 : ∃ k ∈ rest, ∃ f, alookup k TEXT_FILE_DICT = some f ∧
          alookup f files = none := by
        rcases hmiss with ⟨k, hk, f, hf, hls⟩
        rcases List.mem_cons.mp hk with hk2 | hk2
        · rw [hk2, hf0] at hf
          injection hf with hf2
          rw [← hf2, hls0] at hls
          exact Option.noConfusion hls
        · exact ⟨k, hk2, f, hf, hls⟩
      rcases ih (setVal key (buildRows ext ls0) ts)
          (fun k hk => hdict k (by simp [hk]))
          (fun k hk => by
            rcases hts k (by simp [hk]) with ⟨t, ht⟩
            rw [alookup_setVal]
            by_cases hke : key = k
            · exact ⟨buildRows ext ls0, by rw [if_pos hke]⟩
            · exact ⟨t, by rw [if_neg hke]; exact ht⟩)
          hmiss2 with ⟨k, f, hk, hf, hls, hrun⟩
      exact ⟨k, f, by simp [hk], hf, hls, by rw [hstep, hrun]⟩


/-! ## The claims -/

/-- Claim C1: with fuzzy mode enabled, every exact-match candidate's shifted
rank (`rank - 1`, with bm25 rank strictly negative) lies strictly below
every fuzzy-derived rank (which lies in `[-1, -0.6]`); and for any key found
by both paths, the merged rank retained for it equals its exact-match rank. -/
theorem two_tier_ranking (ext : Ext)
    (hrank : ∀ kw c r, ext.rankFn kw c = some r → r < 0)
    (hratio : ∀ a b, ext.ratioFn a b ≤ 100)
    (tables : List (Chars × Table)) (segKw keyword : Chars) (ml : Option Nat)
    (lim : Nat) (dbs : List Chars) (exact fz : List (Chars × ℚ))
    (log1 log2 : List TableQuery)
    (hex : exactPhase ext.rankFn tables segKw ml lim dbs = .ok (exact, log1))
    (hfz : fuzzyPhase ext.ratioFn tables keyword dbs = .ok (fz, log2)) :
    (∀ p ∈ exact, ∀ q ∈ fz, p.2 < q.2) ∧
    (∀ q ∈ fz, -1 ≤ q.2 ∧ q.2 ≤ -(3 / 5)) ∧
    (∀ k, k ∈ keys exact →
      alookup k (dedupMin (exact ++ fz)) = alookup k (dedupMin exact)) := by
  have hexact_lt : ∀ p ∈ exact, p.2 < -1 := by
    intro p hp
    rcases exactPhase_ok_mem ext.rankFn tables segKw ml lim dbs exact log1 hex p hp with
      ⟨db, _, tbl, _, e, _, r0, hr0, hpe⟩
    have h := hrank segKw e.content r0 hr0
    rw [hpe]
    show r0 - 1 < -1
    linarith
  have hfz_bounds : ∀ q ∈ fz, -1 ≤ q.2 ∧ q.2 ≤ -(3 / 5) := by
    intro q hq
    rcases fuzzyPhase_ok_mem ext.ratioFn tables keyword dbs fz log2 hfz q hq with
      ⟨db, _, tbl, _, e, _, hth, hqe⟩
    have h1 := fuzzSim_le_one ext.ratioFn hratio keyword e.raw_text
    rw [hqe]
    constructor
    · show -1 ≤ -(fuzzSim ext.ratioFn keyword e.raw_text)
      linarith
    · show -(fuzzSim ext.ratioFn keyword e.raw_text) ≤ -(3 / 5)
      linarith
  refine ⟨?_, hfz_bounds, ?_⟩
  · intro p hp q hq
    have h1 := hexact_lt p hp
    have h2 := (hfz_bounds q hq).1
    linarith
  · intro k hk
    have hne : ranksOf k exact ≠ [] := (ranksOf_ne_nil_iff k exact).mpr hk
    rcases dedupMin_retains_min exact k hne with ⟨m, hm, hmem, _⟩
    rw [alookup_dedupMin, ranksOf_append, foldMin_append, ← alookup_dedupMin, hm]
    apply foldMin_of_le
    intro r hr
    have h1 : m < -1 := hexact_lt (k, m) ((mem_ranksOf k exact m).mp hmem)
    have h2 : -1 ≤ r := (hfz_bounds (k, r) ((mem_ranksOf k fz r).mp hr)).1
    linarith

theorem two_tier_ranking_witness :
    (exactPhase extA.rankFn mgrA.tables "hello world".toList none 100 ["cn".toList]
      = .ok ([("greet001".toList, -3)], [.matchQ "cn".toList])) ∧
    (fuzzyPhase extA.ratioFn mgrA.tables "hello world".toList ["cn".toList]
      = .ok ([("greet001".toList, -(4 / 5))], [.scanQ "cn".toList])) ∧
    alookup "greet001".toList
        (dedupMin ([("greet001".toList, (-3 : ℚ))] ++ [("greet001".toList, -(4 / 5))]))
      = alookup "greet001".toList (dedupMin [("greet001".toList, (-3 : ℚ))]) := by
  have hrank : ∀ kw c r, extA.rankFn kw c = some r → r < 0 := by
    intro kw c r h
    by_cases he : kw = c
    · simp only [extA, he, if_pos] at h
      injection h with h2
      rw [← h2]
      norm_num
    · simp [extA, he] at h
  have hratio : ∀ a b, extA.ratioFn a b ≤ 100 := by
    intro a b
    show (80 : Nat) ≤ 100
    decide
  have hex : exactPhase extA.rankFn mgrA.tables "hello world".toList none 100 ["cn".toList]
      = .ok ([("greet001".toList, -3)], [.matchQ "cn".toList]) := by
    norm_num [exactPhase, ftsQuery, ftsMatched, ftsRows, extA, mgrA, tblCn, alookup,
      sortByRank, insertRank, List.cons_ne_nil, List.filterMap_cons, List.filterMap_nil,
      List.foldl_cons, List.foldl_nil, List.map_cons, List.map_nil]
  have hfz : fuzzyPhase extA.ratioFn mgrA.tables "hello world".toList ["cn".toList]
      = .ok ([("greet001".toList, -(4 / 5))], [.scanQ "cn".toList]) := by
    norm_num [fuzzyPhase, _fuzzy_search, fuzzyScan, fuzzSim, extA, mgrA, tblCn, alookup,
      lower, List.filterMap_cons, List.filterMap_nil]
  refine ⟨hex, hfz, ?_⟩
  exact (two_tier_ranking extA hrank hratio mgrA.tables "hello world".toList
    "hello world".toList none 100 ["cn".toList]
    [("greet001".toList, -3)] [("greet001".toList, -(4 / 5))]
    [.matchQ "cn".toList] [.scanQ "cn".toList]
    hex hfz).2.2 "greet001".toList (by decide)

/-- Claim C2: the merge retains, per key, exactly the minimum collected
rank; the merged pairs are sorted ascending by rank; the returned key list
is truncated to `limit`, has no duplicate keys, and is exactly what
`search` returns as its ordered ids. -/
theorem merge_dedup_order (result : List (Chars × ℚ)) (limit : Nat) :
    (∀ k, k ∈ keys result → ∃ m, alookup k (dedupMin result) = some m ∧
      m ∈ ranksOf k result ∧ ∀ r ∈ ranksOf k result, m ≤ r) ∧
    (sortByRank (dedupMin result)).Pairwise RankLE ∧
    (mergePipeline result limit).length ≤ limit ∧
    (mergePipeline result limit).Nodup ∧
    (∀ ext M kw u dr ml fzb T, search ext M kw limit u dr ml fzb = .ok T →
      ∃ exact log1 fz log2,
        exactPhase ext.rankFn M.tables (segKeywordOf ext kw) ml limit (dbsOf u)
          = .ok (exact, log1) ∧
        (if fzb then fuzzyPhase ext.ratioFn M.tables kw (dbsOf u) else .ok ([], []))
          = .ok (fz, log2) ∧
        T.ids = mergePipeline (exact ++ fz) limit) := by
  refine ⟨?_, sortByRank_sorted _, ?_, ?_, ?_⟩
  · intro k hk
    exact dedupMin_retains_min result k ((ranksOf_ne_nil_iff k result).mpr hk)
  · exact List.length_take_le limit _
  · have h1 := dedupMin_keys_nodup result
    have hperm : List.Perm (keys (sortByRank (dedupMin result))) (keys (dedupMin result)) :=
      (sortByRank_perm (dedupMin result)).map Prod.fst
    have h2 : (keys (sortByRank (dedupMin result))).Nodup := hperm.nodup_iff.mpr h1
    exact List.Nodup.sublist (List.take_sublist limit _) h2
  · intro ext M kw u dr ml fzb T h
    rcases search_ok_inv ext M kw limit u dr ml fzb T h with
      ⟨exact, log1, fz, log2, payload, log3, h1, h2, _, hids, _, _⟩
    exact ⟨exact, log1, fz, log2, h1, h2, hids⟩

theorem merge_dedup_order_witness :
    "a".toList ∈ keys [("a".toList, (2 : ℚ)), ("b".toList, 1), ("a".toList, 1)] ∧
    alookup "a".toList (dedupMin [("a".toList, (2 : ℚ)), ("b".toList, 1), ("a".toList, 1)])
      = some 1 := by
  refine ⟨by decide, ?_⟩
  rcases (merge_dedup_order [("a".toList, (2 : ℚ)), ("b".toList, 1), ("a".toList, 1)] 5).1
    "a".toList (by decide) with ⟨m, hm, hmem, hmin⟩
  have hr : ranksOf "a".toList [("a".toList, (2 : ℚ)), ("b".toList, 1), ("a".toList, 1)]
      = [2, 1] := by
    norm_num [ranksOf, List.filterMap_cons, List.filterMap_nil,
      show ¬ ('b' = 'a') by decide]
  rw [hr] at hmem hmin
  have h1 : m ≤ 1 := hmin 1 (by simp)
  have h2 : m = 1 := by
    rcases List.mem_cons.mp hmem with h3 | h3
    · exfalso
      rw [h3] at h1
      norm_num at h1
    · simpa using h3
  rw [h2] at hm
  exact hm

/-- Claim C3 (the code violates it): a keyword that sanitizes to the empty
string is passed to fts5 `MATCH` as an empty pattern, which is an fts5
syntax error; `search` propagates the `sqlite3.OperationalError` instead of
returning an empty result set. -/
theorem sanitized_empty_raises :
    search extA mgrA "-".toList 100 (.list ["cn".toList, "en".toList]) false none false
      = .error (.operationalError "fts5: syntax error".toList) := by
  decide

/-- Claim C4 (counterexample to "zero table queries"): with `limit = 0` the
code still issues one fts5 query per language table (`LIMIT 0`); there is
no short-circuit. -/
theorem limit_zero_counterexample :
    search extA mgrA "hello world".toList 0 (.list ["cn".toList, "en".toList])
        false none false
      = .ok ⟨[], [], [.matchQ "cn".toList, .matchQ "en".toList]⟩ := by
  decide

/-- Claim C4 as amended: `search(k, limit=0)` does not short-circuit — one
`MATCH` query is still issued per enabled table (plus one full scan per
table in fuzzy mode) — but SQLite's `LIMIT 0` stops row production before
the fts5 pattern is parsed, so whenever every queried table exists the call
succeeds (even for a keyword that sanitizes to the empty pattern), with an
empty ordered key sequence and an empty payload; and every successful
`limit = 0` call returns empty ids and payload, for any fuzzy flag. -/
theorem limit_zero_empty (ext : Ext) (M : Manager) (kw : Chars) (u : UseDb)
    (dr : Bool) (ml : Option Nat) (fzb : Bool)
    (h : ∀ db ∈ dbsOf u, alookup db M.tables ≠ none) :
    (∃ R, search ext M kw 0 u dr ml fzb
      = .ok ⟨[], [], R⟩ ∧
        R = (dbsOf u).map TableQuery.matchQ
          ++ (if fzb then (dbsOf u).map TableQuery.scanQ else [])) ∧
    (∀ T, search ext M kw 0 u dr ml fzb = .ok T → T.ids = [] ∧ T.payload = []) := by
  constructor
  · have hex := exactPhase_limit_zero ext.rankFn M.tables (segKeywordOf ext kw)
      ml (dbsOf u) h
    refine ⟨_, ?_, rfl⟩
    cases fzb with
    | false =>
      simp [search, hex, mergePipeline_zero, generate_nil]
    | true =>
      rcases fuzzyPhase_all_ok ext.ratioFn M.tables kw (dbsOf u) h with ⟨res, hfz⟩
      simp [search, hex, hfz, mergePipeline_zero, generate_nil]
  · intro T hT
    rcases search_ok_inv ext M kw 0 u dr ml fzb T hT with
      ⟨exact, log1, fz, log2, payload, log3, _, _, h3, hids, hpl, _⟩
    have hmp := mergePipeline_zero (exact ++ fz)
    rw [hmp] at hids h3
    have h4 := (generate_nil M kw dr).symm.trans h3
    injection h4 with h5
    have h6 : payload = [] := by
      have h7 := congrArg Prod.fst h5
      simpa using h7.symm
    refine ⟨hids, ?_⟩
    rw [hpl, h6]

theorem limit_zero_empty_witness :
    (∃ R, search extA mgrA "hello world".toList 0 (.list ["cn".toList, "en".toList])
        false none true
      = .ok ⟨[], [], R⟩ ∧
        R = (dbsOf (.list ["cn".toList, "en".toList])).map TableQuery.matchQ
          ++ (if true then (dbsOf (.list ["cn".toList, "en".toList])).map
                TableQuery.scanQ else [])) ∧
    (∀ T, search extA mgrA "hello world".toList 0 (.list ["cn".toList, "en".toList])
        false none true = .ok T → T.ids = [] ∧ T.payload = []) :=
  limit_zero_empty extA mgrA "hello world".toList (.list ["cn".toList, "en".toList])
    false none true (by decide)

/-- Claim C5 (counterexample to the `get_full_text` half): a key absent
from a language table makes `fetchone()` return `None`, and `None[0]`
raises a `TypeError` — the call fails instead of omitting the language. -/
theorem unknown_key_counterexample :
    get_full_text mgrA "zzz".toList false = .error .typeError := by
  decide

/-- Claim C5 as amended: snippet generation omits unresolved keys and never
fails because of them (it fails only if a display table is missing), while
`get_full_text` succeeds only when the key resolves in every enabled
language table. -/
theorem point_lookup_policy (M : Manager) (ids : List Chars) (kw : Chars) (dr : Bool)
    (tid : Chars) (u : Bool) :
    ((∀ db ∈ displayDbs M dr, ∃ tbl, alookup db M.tables = some tbl) →
      ∃ pl log, generate_result_sqlite M ids kw dr = .ok (pl, log)) ∧
    (∀ pl log, generate_result_sqlite M ids kw dr = .ok (pl, log) →
      ∀ t ∈ keys pl, t ∈ ids) ∧
    (∀ out, get_full_text M tid u = .ok out →
      ∀ db ∈ M.used_text, ∃ tbl e, alookup db M.tables = some tbl ∧ e ∈ tbl ∧
        e.text_id = tid) := by
  refine ⟨?_, ?_, ?_⟩
  · intro hdbs
    unfold generate_result_sqlite
    by_cases hids : ids = []
    · rw [if_pos hids]
      exact ⟨[], [], rfl⟩
    · rw [if_neg hids]
      exact genLoop_ok M kw ids (displayDbs M dr) [] hdbs
  · intro pl log h t ht
    unfold generate_result_sqlite at h
    by_cases hids : ids = []
    · rw [if_pos hids] at h
      injection h with h2
      have h6 : pl = [] := by
        have h7 := congrArg Prod.fst h2
        simpa using h7.symm
      rw [h6] at ht
      simp [keys_nil] at ht
    · rw [if_neg hids] at h
      rcases genLoop_keys M kw ids (displayDbs M dr) [] pl log h t ht with h2 | h2
      · simp [keys_nil] at h2
      · exact h2
  · intro out h db hdb
    exact gftLoop_ok_mem M tid M.used_text out h db hdb

theorem point_lookup_policy_witness :
    get_full_text mgrB "greet001".toList false
      = .ok ([("en".toList, "Hello World".toList), ("cn".toList, "hello world".toList)]) ∧
    alookup "en".toList mgrB.tables ≠ none := by
  have hout : get_full_text mgrB "greet001".toList false
      = .ok ([("en".toList, "Hello World".toList), ("cn".toList, "hello world".toList)]) := by
    decide
  refine ⟨hout, ?_⟩
  rcases (point_lookup_policy mgrB [] "x".toList false "greet001".toList false).2.2
    _ hout "en".toList (by decide) with ⟨tbl, e, htbl, _, _⟩
  rw [htbl]
  simp

/-- Claim C6: for raw text whose escaped form is under the applicable
budget (half of 100 for CJK text, else 100), `highlight` returns the
escaped text with every case-insensitive keyword occurrence wrapped in
emphasis markers and no truncation, and stripping the markers recovers the
escaped input exactly. -/
theorem highlight_roundtrip (text kw : Chars)
    (hbudget : (escape text).length < (if contains_chinese text then 50 else 100)) :
    highlight 100 text kw = subAll kw (escape text) ∧
    stripMarkers (highlight 100 text kw) = escape text := by
  have hdl : (if contains_chinese text then 100 / 2 else 100)
      = (if contains_chinese text then 50 else 100) := by
    cases hc : contains_chinese text <;> simp
  have h1 : highlight 100 text kw = subAll kw (escape text) := by
    simp only [highlight]
    rw [hdl, if_pos hbudget]
  refine ⟨h1, ?_⟩
  rw [h1]
  exact stripMarkers_subAll kw (escape text) (escape_no_lt text)

theorem highlight_roundtrip_witness :
    ((escape "Hello world, hello!".toList).length <
      (if contains_chinese "Hello world, hello!".toList then 50 else 100)) ∧
    stripMarkers (highlight 100 "Hello world, hello!".toList "hello".toList)
      = escape "Hello world, hello!".toList :=
  ⟨by decide,
   (highlight_roundtrip "Hello world, hello!".toList "hello".toList (by decide)).2⟩

set_option maxRecDepth 40000 in
theorem highlight_prefix_overflow_witness :
    (c7text.length = 300 ∧ contains_chinese c7text = false ∧
      findCI "helo".toList c7text = some 250) ∧
    highlight 100 c7text "helo".toList = c7text.take 100 ++ ellips :=
  ⟨by refine ⟨by decide, by decide, by decide⟩,
   (highlight_prefix_overflow c7text "helo".toList (by decide) (by decide)
     (by decide) (by decide) (by decide)).1⟩

/-- Claim C8: the fuzzy similarity is `partial_ratio` of the lowercased
pair over 100, hence in `[0, 1]` and invariant under case; an entry is
emitted with rank `-similarity` exactly when `similarity ≥ 0.6`; and with
`fuzzy=false` no full scan runs and the result is built from the exact
phase alone. -/
theorem fuzzy_contract (ratioFn : Chars → Chars → Nat)
    (hratio : ∀ a b, ratioFn a b ≤ 100) (kw raw : Chars) (tbl : Table) :
    (0 ≤ fuzzSim ratioFn kw raw ∧ fuzzSim ratioFn kw raw ≤ 1) ∧
    (∀ kw2 raw2, lower kw2 = lower kw → lower raw2 = lower raw →
      fuzzSim ratioFn kw2 raw2 = fuzzSim ratioFn kw raw) ∧
    (∀ p, p ∈ fuzzyScan ratioFn tbl kw (3 / 5) ↔
      ∃ e ∈ tbl, 3 / 5 ≤ fuzzSim ratioFn kw e.raw_text ∧
        p = (e.text_id, -(fuzzSim ratioFn kw e.raw_text))) ∧
    (∀ ext M lim u dr ml T, search ext M kw lim u dr ml false = .ok T →
      (∀ db, TableQuery.scanQ db ∉ T.tableQueries) ∧
      ∃ exact log1, exactPhase ext.rankFn M.tables (segKeywordOf ext kw) ml lim (dbsOf u)
        = .ok (exact, log1) ∧ T.ids = mergePipeline exact lim) := by
  refine ⟨⟨fuzzSim_nonneg ratioFn kw raw, fuzzSim_le_one ratioFn hratio kw raw⟩, ?_, ?_, ?_⟩
  · intro kw2 raw2 h1 h2
    unfold fuzzSim
    rw [h1, h2]
  · intro p
    exact mem_fuzzyScan_iff ratioFn tbl kw (3 / 5) p
  · intro ext M lim u dr ml T h
    rcases search_ok_inv ext M kw lim u dr ml false T h with
      ⟨exact, log1, fz, log2, payload, log3, h1, h2, h3, hids, _, hlog⟩
    simp only [Bool.false_eq_true, if_false, Except.ok.injEq, Prod.mk.injEq] at h2
    constructor
    · intro db hmem
      rw [hlog] at hmem
      rcases List.mem_append.mp hmem with hm | hm
      · rcases List.mem_append.mp hm with hm2 | hm2
        · rcases exactPhase_log_shape ext.rankFn M.tables (segKeywordOf ext kw) ml lim
            (dbsOf u) exact log1 h1 _ hm2 with ⟨db2, heq⟩
          exact TableQuery.noConfusion heq
        · rw [← h2.2] at hm2
          simp at hm2
      · rcases generate_log_shape M _ kw dr payload log3 h3 _ hm with ⟨db2, heq⟩
        exact TableQuery.noConfusion heq
    · refine ⟨exact, log1, h1, ?_⟩
      rw [hids, ← h2.1, List.append_nil]

theorem fuzzy_contract_witness :
    fuzzSim (fun _ _ => 80) "helo".toList "hello world".toList = 4 / 5 ∧
    (0 ≤ fuzzSim (fun _ _ => 80) "helo".toList "hello world".toList ∧
      fuzzSim (fun _ _ => 80) "helo".toList "hello world".toList ≤ 1) :=
  ⟨by norm_num [fuzzSim, lower],
   (fuzzy_contract (fun _ _ => 80) (fun a b => by show (80 : Nat) ≤ 100; decide)
     "helo".toList "hello world".toList tblCn).1⟩

/-- Claim C9: if any enabled language's source file is missing, the full
rebuild raises a `RuntimeError` naming the offending language; if every
enabled language's source file exists, the rebuild succeeds and replaces
the contents of every enabled table with the rows built from its file. -/
theorem rebuild_contract (ext : Ext) (files : List (Chars × List Chars)) (M : Manager)
    (hdict : ∀ k ∈ M.used_text, ∃ f, alookup k TEXT_FILE_DICT = some f) :
    ((∃ k ∈ M.used_text, ∃ f, alookup k TEXT_FILE_DICT = some f ∧
        alookup f files = none) →
      ∃ k f, k ∈ M.used_text ∧ alookup k TEXT_FILE_DICT = some f ∧
        alookup f files = none ∧
        full_refresh ext files M = .error (.runtimeError
          ("文本文件".toList ++ k ++ "不存在，无法读取".toList))) ∧
    ((∀ k ∈ M.used_text, ∃ f ls, alookup k TEXT_FILE_DICT = some f ∧
        alookup f files = some ls) →
      ∃ M2, full_refresh ext files M = .ok M2 ∧
        ∀ k ∈ M.used_text, ∀ f ls, alookup k TEXT_FILE_DICT = some f →
          alookup f files = some ls → alookup k M2.tables = some (buildRows ext ls)) := by
  have hcreate := create_db_has M
  constructor
  · intro hmiss
    rcases refreshLoop_first_missing ext files M.used_text (create_db M).tables hdict
      hcreate hmiss with ⟨k, f, hk, hf, hls, hrun⟩
    refine ⟨k, f, hk, hf, hls, ?_⟩
    unfold full_refresh refresh_db
    simp only [show (create_db M).used_text = M.used_text from rfl, hrun]
  · intro hall
    rcases refreshLoop_ok ext files M.used_text (create_db M).tables hcreate hall with
      ⟨ts2, hrun, hvals, _⟩
    refine ⟨{ create_db M with tables := ts2 }, ?_, ?_⟩
    · unfold full_refresh refresh_db
      simp only [show (create_db M).used_text = M.used_text from rfl, hrun]
    · intro k hk f ls hf hls
      exact hvals k hk f ls hf hls

theorem rebuild_contract_witness :
    full_refresh extA filesA mgrA = .ok mgrRefreshed ∧
    alookup "en".toList mgrRefreshed.tables = some (buildRows extA ["k1=hello".toList]) := by
  have hdict : ∀ k ∈ mgrA.used_text, ∃ f, alookup k TEXT_FILE_DICT = some f := by
    intro k hk
    rcases List.mem_cons.mp hk with h | h
    · exact ⟨"en.ini".toList, by rw [h]; decide⟩
    · rcases List.mem_cons.mp h with h2 | h2
      · exact ⟨"cn.ini".toList, by rw [h2]; decide⟩
      · simp at h2
  have hall : ∀ k ∈ mgrA.used_text, ∃ f ls, alookup k TEXT_FILE_DICT = some f ∧
      alookup f filesA = some ls := by
    intro k hk
    rcases List.mem_cons.mp hk with h | h
    · exact ⟨"en.ini".toList, ["k1=hello".toList], by rw [h]; decide, by decide⟩
    · rcases List.mem_cons.mp h with h2 | h2
      · exact ⟨"cn.ini".toList, ["k1=nihao".toList], by rw [h2]; decide, by decide⟩
      · simp at h2
  have heval : full_refresh extA filesA mgrA = .ok mgrRefreshed := by decide
  refine ⟨heval, ?_⟩
  rcases (rebuild_contract extA filesA mgrA hdict).2 hall with ⟨M2, hM2, hvals⟩
  have hM2e : M2 = mgrRefreshed := by
    rw [heval] at hM2
    injection hM2 with h2
    exact h2.symm
  rw [← hM2e]
  exact hvals "en".toList (by decide) "en.ini".toList ["k1=hello".toList]
    (by decide) (by decide)

/-- Claim C10: a bare-string `use_db` is normalized to a one-element list
at entry, so `search` with the string form returns exactly the same result
(ids, payload, and table queries) as with the singleton-list form. -/
theorem use_db_normalization (ext : Ext) (M : Manager) (kw : Chars) (lim : Nat)
    (c : Chars) (dr : Bool) (ml : Option Nat) (fzb : Bool) :
    search ext M kw lim (.str c) dr ml fzb = search ext M kw lim (.list [c]) dr ml fzb :=
  rfl

end SCDict
